import Mathlib

/-!
Shallow embedding of the log-matching tool in `main.py`.

The core consists of three functions operating on JSON-like records:
`add_log_htc` and `add_log_wma` derive a log-location key (`EOSLogURL`)
and write it onto each record, and `merge_dicts_by_url` groups records by
that key and folds every group of size at least two into one record.

Modelling choices, stated once here:
* Python dictionaries are ordered; they are modelled as association lists
  with unique keys, where insertion appends and assignment to an existing
  key keeps its position.  Keys of the dictionaries handled by this tool
  come from JSON objects and are therefore strings.
* JSON scalars are strings, integers and booleans.  Floating-point values
  never occur in the fields the claims are about and are not modelled; a
  Python `bool` passes an `isinstance(x, int)` check, so booleans count as
  primitive scalars below, matching `isinstance(x, (str, int, float))`.
* Python exceptions (`KeyError`, `IndexError`, `TypeError`, `ValueError`,
  `AttributeError`) are modelled by an error type carrying exactly the
  information the exception's arguments carry in the source: a `KeyError`
  carries the missing key and the others carry no merge-specific context
  (CPython attaches a generic message that mentions types, never the
  record, field or values involved).
* CPython's `list(set(xs))` deduplicates in a hash-dependent order; the
  embedding deduplicates keeping first occurrences.  Every theorem about
  deduplicated lists is stated only up to membership and duplicate
  freedom, so this determinisation is not load-bearing.
* `dict.update(v)` with a non-dict `v` raises for every value that can
  appear here except pathological pair-sequences (e.g. a list of 2-element
  sequences, or the empty string, which CPython accepts); the embedding
  keeps the empty-string success case and maps the list case to an error.
  No theorem below depends on the list-update branch.
* Grouping keys are compared structurally.  Python compares dict keys
  with `==`, which additionally identifies `True` with `1`; no claim
  involves boolean-valued `EOSLogURL` fields, and unhashable keys (lists,
  dicts) raise `TypeError` before any comparison, as in the source.
-/

/-- A JSON-like Python value: scalar, ordered list, or string-keyed dict. -/
inductive Value where
  | str : String → Value
  | int : Int → Value
  | bool : Bool → Value
  | list : List Value → Value
  | dict : List (String × Value) → Value

/-- Ordered association list standing for a Python dict. -/
abbrev Obj := List (String × Value)

/-- Python exceptions, carrying what their constructor arguments carry. -/
inductive PyError where
  | keyError (key : String)
  | indexError
  | typeError
  | valueError
  | attributeError
deriving DecidableEq, Repr

/-- Dictionary lookup, `d[k]`-style access on the underlying list. -/
def lookup (kvs : Obj) (k : String) : Option Value :=
  match kvs with
  | [] => none
  | (k', v) :: rest => if k' = k then some v else lookup rest k

/-- Dictionary assignment `d[k] = v`: replace in place or append. -/
def setk (kvs : Obj) (k : String) (v : Value) : Obj :=
  match kvs with
  | [] => [(k, v)]
  | (k', v') :: rest => if k' = k then (k', v) :: rest else (k', v') :: setk rest k v

/-- Subscript access `v[k]`: `KeyError` when absent, `TypeError` when `v`
is not a dict (a list, string or number rejects a string subscript). -/
def pyIndex (v : Value) (k : String) : Except PyError Value :=
  match v with
  | .dict kvs =>
    match lookup kvs k with
    | some x => .ok x
    | none => .error (.keyError k)
  | _ => .error .typeError

/-- Subscript assignment `v[k] = x` on a dict value. -/
def pySet (v : Value) (k : String) (x : Value) : Except PyError Value :=
  match v with
  | .dict kvs => .ok (.dict (setk kvs k x))
  | _ => .error .typeError

/-- A value Python's `isinstance(x, (str, int, float))` accepts; a `bool`
is an `int` in Python, so it is accepted too. -/
def isPrim : Value → Bool
  | .str _ => true
  | .int _ => true
  | .bool _ => true
  | _ => false

/-- Equality test used on primitive scalars; non-scalars never reach it
in the source (they fail the `isPrim` guard or the hashability check). -/
def primEq : Value → Value → Bool
  | .str a, .str b => a = b
  | .int a, .int b => a = b
  | .bool a, .bool b => a = b
  | _, _ => false

/-- Deduplication `list(set(xs))`, determinised to keep first occurrences
(CPython's order is hash-dependent; no theorem relies on the order). -/
def dedupPrim (l : List Value) : List Value :=
  match l with
  | [] => []
  | x :: rest => if rest.any (primEq x) then dedupPrim rest else x :: dedupPrim rest

/-- Flattening used by `extend`: a list contributes its elements, any
other value contributes itself (`value if isinstance(value, list) else [value]`). -/
def asElems : Value → List Value
  | .list l => l
  | v => [v]

/-- Python `dict.update` with a dict argument: later keys win, existing
keys keep their position, new keys append. -/
def dictUpdate (kvs kvs2 : Obj) : Obj :=
  kvs2.foldl (fun a kv => setk a kv.1 kv.2) kvs

/-- Field-level merge rule of `merge_dicts_by_url` for a key already
present: lists extend (and deduplicate when all elements are primitive),
dicts update, anything else is overwritten by the incoming value. -/
def mergeValue (cur incoming : Value) : Except PyError Value :=
  match cur with
  | .list l =>
    let ext := l ++ asElems incoming
    if ext.all isPrim then .ok (.list (dedupPrim ext)) else .ok (.list ext)
  | .dict kvs =>
    match incoming with
    | .dict kvs2 => .ok (.dict (dictUpdate kvs kvs2))
    | .str s => if s = "" then .ok (.dict kvs) else .error .valueError
    | _ => .error .typeError
  | _ => .ok incoming

/-- One `key, value` step of the merge fold: insert when absent, merge
via `mergeValue` otherwise. -/
def mergeField (acc : Obj) (kv : String × Value) : Except PyError Obj :=
  match lookup acc kv.1 with
  | none => .ok (acc ++ [kv])
  | some cur => (mergeValue cur kv.2).map (fun v => setk acc kv.1 v)

/-- Folding one group member into the accumulated `merged_dict['data']`:
iterate over `d['data'].items()` in insertion order. -/
def mergeRecord (acc : Obj) (d : Value) : Except PyError Obj := do
  let dd ← pyIndex d "data"
  match dd with
  | .dict fields => fields.foldlM mergeField acc
  | _ => .error .attributeError

/-- Folding a whole group into the fresh record `{'data': {...}}`. -/
def mergeGroup (group : List Value) : Except PyError Value := do
  let md ← group.foldlM mergeRecord []
  pure (.dict [("data", .dict md)])

/-- The grouping key `item['data'].get('EOSLogURL')` of one record:
`KeyError`/`TypeError` from the subscript, `AttributeError` when `data`
is not a dict, and `none` when the field is absent. -/
def itemUrl (item : Value) : Except PyError (Option Value) := do
  let d ← pyIndex item "data"
  match d with
  | .dict ds => pure (lookup ds "EOSLogURL")
  | _ => .error .attributeError

/-- Structural comparison of grouping keys.  Only hashable keys (absent,
string, int, bool) are ever compared in the source; on those this is
Python's `==` except for the unexercised `True == 1` identification. -/
def keyEq : Option Value → Option Value → Bool
  | none, none => true
  | some (.str a), some (.str b) => a = b
  | some (.int a), some (.int b) => a = b
  | some (.bool a), some (.bool b) => a = b
  | _, _ => false

/-- Keys a Python dict accepts: everything here except lists and dicts. -/
def hashableKey : Option Value → Bool
  | some (.list _) => false
  | some (.dict _) => false
  | _ => true

/-- Append a record to the group of its key, first-match order as in an
insertion-ordered `defaultdict(list)`. -/
def insertGrouped (gs : List (Option Value × List Value)) (k : Option Value)
    (r : Value) : List (Option Value × List Value) :=
  match gs with
  | [] => [(k, [r])]
  | (k', g) :: rest =>
    if keyEq k' k then (k', g ++ [r]) :: rest else (k', g) :: insertGrouped rest k r

/-- One step of the grouping loop: compute the key, fail on unhashable
keys as `url_groups[url]` would, then insert. -/
def groupStep (gs : List (Option Value × List Value)) (item : Value) :
    Except PyError (List (Option Value × List Value)) := do
  let u ← itemUrl item
  if hashableKey u then pure (insertGrouped gs u item) else .error .typeError

/-- The grouping pass of `merge_dicts_by_url`: an insertion-ordered map
from `EOSLogURL` value to the list of records carrying it. -/
def groupByUrl (l : List Value) : Except PyError (List (Option Value × List Value)) :=
  l.foldlM groupStep []

/-- One output step over a group: groups of size at least two are folded
into a merged record, a singleton group passes its record through, and
`group[0]` on an impossible empty group is an `IndexError`. -/
def outputStep (acc : List Value × List Value) (kg : Option Value × List Value) :
    Except PyError (List Value × List Value) :=
  if 1 < kg.2.length then
    (mergeGroup kg.2).map (fun m => (acc.1 ++ [m], acc.2))
  else
    match kg.2 with
    | x :: _ => .ok (acc.1, acc.2 ++ [x])
    | [] => .error .indexError

/-- The merger: group by `EOSLogURL`, then split groups into merged
records and single entries, in first-seen key order. -/
def merge_dicts_by_url (dict_list : List Value) :
    Except PyError (List Value × List Value) := do
  let gs ← groupByUrl dict_list
  gs.foldlM outputStep ([], [])

/-- Python `s.split(sep)` for a one-character separator, on the character
list of `s`: splitting never drops empty pieces. -/
def splitChars (cs : List Char) (sep : Char) : List (List Char) :=
  match cs with
  | [] => [[]]
  | c :: rest =>
    match splitChars rest sep with
    | [] => [[c]]
    | p :: ps => if c = sep then [] :: p :: ps else (c :: p) :: ps

/-- Python `s.split(" ")` as used on the `Args` field. -/
def pySplit (s : String) (sep : Char) : List String :=
  (splitChars s.data sep).map (fun cs => String.mk cs)

/-- The fixed URL base both key derivations share. -/
def eosUrlBase : String :=
  "https://eoscmsweb.cern.ch/eos/cms/store/logs/prod/recent/PRODUCTION"

/-- A string operand of `+` on strings; a non-string raises `TypeError`. -/
def pyStrConcat (v : Value) : Except PyError String :=
  match v with
  | .str s => .ok s
  | _ => .error .typeError

/-- The receiver of `.split`; a non-string has no such attribute. -/
def pyStrAttr (v : Value) : Except PyError String :=
  match v with
  | .str s => .ok s
  | _ => .error .attributeError

/-- Python `xs[i]` on a list of strings. -/
def pyListGet (l : List String) (i : Nat) : Except PyError String :=
  match l.get? i with
  | some x => .ok x
  | none => .error .indexError

/-- Processing of one entry by `add_log_htc`: split `Args`, assemble the
key from `WMAgent_SubTaskName`, `ScheddName` and the second and third
`Args` tokens, write it to `data`, and emit `entry["_source"]`.
Failures occur in the source's evaluation order. -/
def processHtcEntry (entry : Value) : Except PyError Value := do
  let src ← pyIndex entry "_source"
  let d ← pyIndex src "data"
  let argsV ← pyIndex d "Args"
  let argsStr ← pyStrAttr argsV
  let args := pySplit argsStr ' '
  let sub ← pyIndex d "WMAgent_SubTaskName" >>= pyStrConcat
  let sched ← pyIndex d "ScheddName" >>= pyStrConcat
  let a1 ← pyListGet args 1
  let a2 ← pyListGet args 2
  let url := eosUrlBase ++ sub ++ "/" ++ sched ++ "-" ++ a1 ++ "-" ++ a2 ++ "-log.tar.gz"
  let d' ← pySet d "EOSLogURL" (.str url)
  pySet src "data" d'

/-- The function `add_log_htc`: process every entry, abort on the first
exception (the Python loop raises through). -/
def add_log_htc (data : List Value) : Except PyError (List Value) :=
  data.mapM processHtcEntry

/-- The test `data.get("EOSLogURL", "") == ""`: true when the field is
absent or an empty string; no other Python value compares equal to `""`. -/
def emptyLog (o : Option Value) : Bool :=
  match o with
  | none => true
  | some (.str s) => s = ""
  | some _ => false

/-- Processing of one entry by `add_log_wma`: when `data.get("EOSLogURL",
"") == ""` the key is assembled from `task`, `meta_data.host` and
`meta_data.fwjr_id` and written back, otherwise the entry's `_source` is
emitted untouched. -/
def processWmaEntry (entry : Value) : Except PyError Value := do
  let src ← pyIndex entry "_source"
  let d ← pyIndex src "data"
  match d with
  | .dict ds =>
    if emptyLog (lookup ds "EOSLogURL") then do
      let task ← pyIndex d "task" >>= pyStrConcat
      let md ← pyIndex d "meta_data"
      let host ← pyIndex md "host" >>= pyStrConcat
      let fwjr ← pyIndex md "fwjr_id" >>= pyStrConcat
      let url := eosUrlBase ++ task ++ "/" ++ host ++ "-" ++ fwjr ++ "-log.tar.gz"
      let d' ← pySet d "EOSLogURL" (.str url)
      pySet src "data" d'
    else
      pure src
  | _ => .error .attributeError

/-- The function `add_log_wma`. -/
def add_log_wma (data : List Value) : Except PyError (List Value) :=
  data.mapM processWmaEntry

/-- The grouping key of a record, as a total function for specifications:
the `EOSLogURL` value of its `data` dict, when both exist. -/
def recKey (r : Value) : Option Value :=
  match r with
  | .dict kvs =>
    match lookup kvs "data" with
    | some (.dict ds) => lookup ds "EOSLogURL"
    | _ => none
  | _ => none

/-- The distinct grouping keys of a record list, in first-seen order. -/
def keysOf (l : List Value) : List (Option Value) :=
  l.foldl (fun acc r => if acc.any (keyEq (recKey r)) then acc else acc ++ [recKey r]) []

/-- A record whose `data` dict could come from a Python dict: its field
names are pairwise distinct.  Association lists with repeated keys do not
represent any Python value. -/
def dataWF (r : Value) : Bool :=
  match r with
  | .dict kvs =>
    match lookup kvs "data" with
    | some (.dict ds) => decide (ds.map Prod.fst).Nodup
    | _ => true
  | _ => true


/-- The groups `merge_dicts_by_url` builds, described independently of the
fold: one entry per first-seen key, holding the input's records with that
key in encounter order. -/
def groupsSpec (l : List Value) : List (Option Value × List Value) :=
  (keysOf l).map (fun k => (k, l.filter (fun r => keyEq (recKey r) k)))

/-- The keys first occurring in `l` that are not in `seen`, in order. -/
def newKeys (seen : List (Option Value)) (l : List Value) : List (Option Value) :=
  match l with
  | [] => []
  | r :: t =>
    if seen.any (keyEq (recKey r)) then newKeys seen t
    else recKey r :: newKeys (seen ++ [recKey r]) t

/-- The keys whose group has at least two records, in first-seen order. -/
def multiKeys (l : List Value) : List (Option Value) :=
  (keysOf l).filter (fun k => decide (1 < l.countP (fun r => keyEq (recKey r) k)))

/-- A record carrying key `u` and one further field `f`. -/
def mkRec (u f : String) (v : Value) : Value :=
  .dict [("data", .dict [("EOSLogURL", .str u), (f, v)])]

/-! Concrete inputs for the witnesses. -/

def cw1l : List Value :=
  [.dict [("data", .dict [("EOSLogURL", .str "u"), ("f", .int 1)])],
   .dict [("data", .dict [("EOSLogURL", .str "u"), ("g", .int 2)])],
   .dict [("data", .dict [("EOSLogURL", .str "v")])]]

def cw1m : List Value :=
  [.dict [("data", .dict [("EOSLogURL", .str "u"), ("f", .int 1), ("g", .int 2)])]]

def cw1s : List Value := [.dict [("data", .dict [("EOSLogURL", .str "v")])]]

def cw2ds : Obj :=
  [("WMAgent_SubTaskName", .str "/Task1"), ("ScheddName", .str "sched1"),
   ("Args", .str "x a1 a2 x")]

def cw2entry : Value := .dict [("_source", .dict [("data", .dict cw2ds)])]

def cw3dsA : Obj := [("EOSLogURL", .str "keep"), ("task", .str "/T")]

def cw3a : Value := .dict [("_source", .dict [("data", .dict cw3dsA)])]

def cw3mds : Obj := [("host", .str "sched1"), ("fwjr_id", .str "a1-a2")]

def cw3dsB : Obj := [("task", .str "/Task1"), ("meta_data", .dict cw3mds)]

def cw3b : Value := .dict [("_source", .dict [("data", .dict cw3dsB)])]

def cw4g : List Value :=
  [.dict [("data", .dict [("a", .int 1)])], .dict [("data", .dict [("b", .int 2)])]]

def cw4x : Value := .dict [("data", .dict [("a", .int 1), ("b", .int 2)])]

def cw6l : List Value :=
  [.dict [("data", .dict [("EOSLogURL", .str "p"), ("f", .int 1)])],
   .dict [("data", .dict [("EOSLogURL", .str "q")])],
   .dict [("data", .dict [("EOSLogURL", .str "p"), ("g", .int 2)])]]

def cw6m : List Value :=
  [.dict [("data", .dict [("EOSLogURL", .str "p"), ("f", .int 1), ("g", .int 2)])]]

def cw6s : List Value := [.dict [("data", .dict [("EOSLogURL", .str "q")])]]

def cw9l : List Value :=
  [.dict [("data", .dict [("a", .int 1)])], .dict [("data", .dict [("b", .int 2)])]]

def cw9m : List Value := [.dict [("data", .dict [("a", .int 1), ("b", .int 2)])]]

def cw10l : List Value :=
  [.dict [("data", .dict [("EOSLogURL", .str "u"), ("f", .int 1)]), ("extra", .int 9)],
   .dict [("data", .dict [("EOSLogURL", .str "u"), ("g", .int 2)])],
   .dict [("data", .dict [("EOSLogURL", .str "v")]), ("top", .str "kept")]]

def cw10m : List Value :=
  [.dict [("data", .dict [("EOSLogURL", .str "u"), ("f", .int 1), ("g", .int 2)])]]

def cw10s : List Value := [.dict [("data", .dict [("EOSLogURL", .str "v")]), ("top", .str "kept")]]


/-! Basic lemmas about the association-list dictionary operations. -/

theorem lookup_append_of_none (kvs kvs' : Obj) (k : String) (h : lookup kvs k = none) :
    lookup (kvs ++ kvs') k = lookup kvs' k := by
  induction kvs with
  | nil => rfl
  | cons kv rest ih =>
    obtain ⟨k', v⟩ := kv
    by_cases hk : k' = k
    · simp [lookup, hk] at h
    · rw [List.cons_append]
      simp only [lookup, if_neg hk] at h ⊢
      exact ih h

theorem lookup_append_of_some (kvs kvs' : Obj) (k : String) (v : Value)
    (h : lookup kvs k = some v) : lookup (kvs ++ kvs') k = some v := by
  induction kvs with
  | nil => simp [lookup] at h
  | cons kv rest ih =>
    obtain ⟨k', w⟩ := kv
    by_cases hk : k' = k
    · rw [List.cons_append]
      simp only [lookup, if_pos hk] at h ⊢
      exact h
    · rw [List.cons_append]
      simp only [lookup, if_neg hk] at h ⊢
      exact ih h

theorem lookup_setk_self (kvs : Obj) (k : String) (v : Value) :
    lookup (setk kvs k v) k = some v := by
  induction kvs with
  | nil => simp [setk, lookup]
  | cons kv rest ih =>
    obtain ⟨k', w⟩ := kv
    by_cases hk : k' = k
    · simp [setk, lookup, hk]
    · simp [setk, lookup, hk, ih]

theorem lookup_setk_ne (kvs : Obj) (k k' : String) (v : Value) (h : k' ≠ k) :
    lookup (setk kvs k v) k' = lookup kvs k' := by
  induction kvs with
  | nil => simp [setk, lookup, Ne.symm h]
  | cons kv rest ih =>
    obtain ⟨k'', w⟩ := kv
    by_cases hk : k'' = k
    · subst hk
      simp [setk, lookup, Ne.symm h]
    · simp [setk, if_neg hk, lookup, ih]

theorem lookup_eq_none_iff (kvs : Obj) (k : String) :
    lookup kvs k = none ↔ k ∉ kvs.map Prod.fst := by
  induction kvs with
  | nil => simp [lookup]
  | cons kv rest ih =>
    obtain ⟨k', v⟩ := kv
    by_cases hk : k' = k
    · subst hk
      simp [lookup]
    · simp only [lookup, if_neg hk, List.map_cons, List.mem_cons, ih]
      constructor
      · intro hn
        rintro (rfl | hmem)
        · exact hk rfl
        · exact hn hmem
      · intro hn hmem
        exact hn (Or.inr hmem)

theorem mem_keys_setk (kvs : Obj) (k k' : String) (v : Value) :
    k' ∈ (setk kvs k v).map Prod.fst ↔ k' ∈ kvs.map Prod.fst ∨ k' = k := by
  induction kvs with
  | nil => simp [setk]
  | cons kv rest ih =>
    obtain ⟨k'', w⟩ := kv
    by_cases hk : k'' = k
    · subst hk
      have hset : setk ((k'', w) :: rest) k'' v = (k'', v) :: rest := by
        simp [setk]
      rw [hset]
      simp only [List.map_cons, List.mem_cons]
      tauto
    · simp only [setk, if_neg hk, List.map_cons, List.mem_cons, ih]
      tauto

theorem lookup_of_mem_nodup (kvs : Obj) (k : String) (v : Value)
    (hnd : (kvs.map Prod.fst).Nodup) (hmem : (k, v) ∈ kvs) : lookup kvs k = some v := by
  induction kvs with
  | nil => simp at hmem
  | cons kv rest ih =>
    obtain ⟨k', w⟩ := kv
    rcases List.mem_cons.mp hmem with h | h
    · have h1 : k = k' := congrArg Prod.fst h
      have h2 : v = w := congrArg Prod.snd h
      subst h1
      subst h2
      simp [lookup]
    · have hk : k' ≠ k := by
        rintro rfl
        exact (List.nodup_cons.mp hnd).1 (List.mem_map.mpr ⟨(k', v), h, rfl⟩)
      simp [lookup, hk, ih (List.nodup_cons.mp hnd).2 h]

/-! Lemmas about key comparison and the exception monad folds. -/

theorem keyEq_eq (a b : Option Value) (ha : hashableKey a = true) :
    keyEq a b = true ↔ a = b := by
  match a, b with
  | none, none => simp [keyEq]
  | none, some v => simp [keyEq]
  | some v, none => cases v <;> simp [keyEq]
  | some v, some w =>
    cases v <;> cases w <;> simp_all [keyEq, hashableKey]

theorem keyEq_self (a : Option Value) (ha : hashableKey a = true) : keyEq a a = true :=
  (keyEq_eq a a ha).mpr rfl

theorem foldlM_ok_cons {α β : Type} (f : β → α → Except PyError β) (a : β) (x : α)
    (l : List α) (b : β) :
    (x :: l).foldlM f a = .ok b ↔ ∃ a', f a x = .ok a' ∧ l.foldlM f a' = .ok b := by
  rw [List.foldlM_cons]
  cases h : f a x with
  | error e => simp [Except.bind, bind]
  | ok a' => simp [Except.bind, bind]

theorem foldlM_ok_append {α β : Type} (f : β → α → Except PyError β) (a : β)
    (l l' : List α) (b : β) :
    (l ++ l').foldlM f a = .ok b ↔ ∃ a', l.foldlM f a = .ok a' ∧ l'.foldlM f a' = .ok b := by
  rw [List.foldlM_append]
  cases h : l.foldlM f a with
  | error e => simp [Except.bind, bind]
  | ok a' => simp [Except.bind, bind]

theorem mapM_ok_cons {α β : Type} (f : α → Except PyError β) (x : α) (l : List α)
    (out : List β) :
    (x :: l).mapM f = .ok out ↔
      ∃ y ys, f x = .ok y ∧ l.mapM f = .ok ys ∧ out = y :: ys := by
  rw [List.mapM_cons]
  cases h : f x with
  | error e => simp [Except.bind, bind]
  | ok y =>
    cases h2 : l.mapM f with
    | error e => simp [Except.bind, bind, pure, Except.pure]
    | ok ys =>
      simp only [Except.bind, bind, pure, Except.pure, Except.ok.injEq]
      constructor
      · rintro rfl
        exact ⟨y, ys, rfl, rfl, rfl⟩
      · rintro ⟨y', ys', hy, hys, rfl⟩
        cases hy
        cases hys
        rfl

theorem mapM_ok_forward {α β : Type} (f : α → Except PyError β) (l : List α)
    (out : List β) (h : l.mapM f = .ok out) :
    ∀ y ∈ out, ∃ x ∈ l, f x = .ok y := by
  induction l generalizing out with
  | nil =>
    simp only [List.mapM_nil, pure, Except.pure, Except.ok.injEq] at h
    subst h
    simp
  | cons x rest ih =>
    rcases (mapM_ok_cons f x rest out).mp h with ⟨y, ys, hy, hys, rfl⟩
    intro z hz
    rcases List.mem_cons.mp hz with rfl | hz2
    · exact ⟨x, by simp, hy⟩
    · rcases ih ys hys z hz2 with ⟨x', hx', hfx'⟩
      exact ⟨x', by simp [hx'], hfx'⟩

theorem mapM_ok_backward {α β : Type} (f : α → Except PyError β) (l : List α)
    (out : List β) (h : l.mapM f = .ok out) :
    ∀ x ∈ l, ∃ y ∈ out, f x = .ok y := by
  induction l generalizing out with
  | nil => simp
  | cons x rest ih =>
    rcases (mapM_ok_cons f x rest out).mp h with ⟨y, ys, hy, hys, rfl⟩
    intro z hz
    rcases List.mem_cons.mp hz with rfl | hz2
    · exact ⟨y, by simp, hy⟩
    · rcases ih ys hys z hz2 with ⟨y', hy', hfy'⟩
      exact ⟨y', by simp [hy'], hfy'⟩

theorem mapM_map_comp {α β γ : Type} (f : α → β) (g : β → Except PyError γ)
    (l : List α) : (l.map f).mapM g = l.mapM (fun x => g (f x)) := by
  induction l with
  | nil => rfl
  | cons x rest ih => rw [List.map_cons, List.mapM_cons, List.mapM_cons, ih]

/-! Characterisation of the grouping pass. -/

theorem insertGrouped_fresh (gs : List (Option Value × List Value)) (k : Option Value)
    (r : Value) (h : ∀ kg ∈ gs, keyEq kg.1 k = false) :
    insertGrouped gs k r = gs ++ [(k, [r])] := by
  induction gs with
  | nil => rfl
  | cons kg rest ih =>
    obtain ⟨k', g⟩ := kg
    have hk : keyEq k' k = false := h (k', g) (by simp)
    simp only [insertGrouped, hk, Bool.false_eq_true, if_false, List.cons_append,
      List.cons.injEq, true_and]
    exact ih (fun kg hkg => h kg (by simp [hkg]))

theorem insertGrouped_found (gs1 gs2 : List (Option Value × List Value))
    (k : Option Value) (g : List Value) (r : Value)
    (h1 : ∀ kg ∈ gs1, keyEq kg.1 k = false) (h2 : keyEq k k = true) :
    insertGrouped (gs1 ++ (k, g) :: gs2) k r = gs1 ++ (k, g ++ [r]) :: gs2 := by
  induction gs1 with
  | nil => simp [insertGrouped, h2]
  | cons kg rest ih =>
    obtain ⟨k', g'⟩ := kg
    have hk : keyEq k' k = false := h1 (k', g') (by simp)
    simp only [List.cons_append, insertGrouped, hk, Bool.false_eq_true, if_false,
      List.cons.injEq, true_and]
    exact ih (fun kg hkg => h1 kg (by simp [hkg]))

theorem keysOf_append_one (l : List Value) (r : Value) :
    keysOf (l ++ [r]) =
      if (keysOf l).any (keyEq (recKey r)) then keysOf l else keysOf l ++ [recKey r] := by
  rw [keysOf, keysOf, List.foldl_append]
  rfl

theorem any_keyEq_iff_mem (ks : List (Option Value)) (k : Option Value)
    (hk : hashableKey k = true) : ks.any (keyEq k) = true ↔ k ∈ ks := by
  rw [List.any_eq_true]
  constructor
  · rintro ⟨x, hx, hkx⟩
    exact ((keyEq_eq k x hk).mp hkx) ▸ hx
  · intro hmem
    exact ⟨k, hmem, keyEq_self k hk⟩

theorem mem_keysOf (l : List Value) (k : Option Value)
    (hall : ∀ r ∈ l, hashableKey (recKey r) = true) :
    k ∈ keysOf l ↔ ∃ r ∈ l, recKey r = k := by
  induction l using List.reverseRecOn with
  | nil => simp [keysOf]
  | append_singleton l r ih =>
    have hr : hashableKey (recKey r) = true := hall r (by simp)
    have hall' : ∀ r' ∈ l, hashableKey (recKey r') = true :=
      fun r' hr' => hall r' (by simp [hr'])
    rw [keysOf_append_one]
    by_cases hany : (keysOf l).any (keyEq (recKey r)) = true
    · rw [if_pos hany]
      have hmem : recKey r ∈ keysOf l := (any_keyEq_iff_mem _ _ hr).mp hany
      rw [ih hall']
      constructor
      · rintro ⟨r', hr', rfl⟩
        exact ⟨r', by simp [hr'], rfl⟩
      · rintro ⟨r', hr', rfl⟩
        rcases List.mem_append.mp hr' with h | h
        · exact ⟨r', h, rfl⟩
        · rcases List.mem_singleton.mp h with rfl
          exact (ih hall').mp hmem
    · rw [if_neg hany]
      rw [List.mem_append, ih hall', List.mem_singleton]
      constructor
      · rintro (⟨r', hr', rfl⟩ | rfl)
        · exact ⟨r', by simp [hr'], rfl⟩
        · exact ⟨r, by simp, rfl⟩
      · rintro ⟨r', hr', rfl⟩
        rcases List.mem_append.mp hr' with h | h
        · exact Or.inl ⟨r', h, rfl⟩
        · rcases List.mem_singleton.mp h with rfl
          exact Or.inr rfl

theorem keysOf_nodup (l : List Value)
    (hall : ∀ r ∈ l, hashableKey (recKey r) = true) : (keysOf l).Nodup := by
  induction l using List.reverseRecOn with
  | nil => simp [keysOf]
  | append_singleton l r ih =>
    have hr : hashableKey (recKey r) = true := hall r (by simp)
    have hall' : ∀ r' ∈ l, hashableKey (recKey r') = true :=
      fun r' hr' => hall r' (by simp [hr'])
    rw [keysOf_append_one]
    by_cases hany : (keysOf l).any (keyEq (recKey r)) = true
    · rw [if_pos hany]
      exact ih hall'
    · rw [if_neg hany]
      refine List.Nodup.append (ih hall') (List.nodup_singleton _) ?_
      intro k hk1 hk2
      rcases List.mem_singleton.mp hk2 with rfl
      exact hany ((any_keyEq_iff_mem _ _ hr).mpr hk1)

theorem keysOf_hashable (l : List Value)
    (hall : ∀ r ∈ l, hashableKey (recKey r) = true) :
    ∀ k ∈ keysOf l, hashableKey k = true := by
  induction l using List.reverseRecOn with
  | nil => simp [keysOf]
  | append_singleton l r ih =>
    have hr : hashableKey (recKey r) = true := hall r (by simp)
    have hall' : ∀ r' ∈ l, hashableKey (recKey r') = true :=
      fun r' hr' => hall r' (by simp [hr'])
    rw [keysOf_append_one]
    by_cases hany : (keysOf l).any (keyEq (recKey r)) = true
    · rw [if_pos hany]
      exact ih hall'
    · rw [if_neg hany]
      intro k hk
      rcases List.mem_append.mp hk with h | h
      · exact ih hall' k h
      · rcases List.mem_singleton.mp h with rfl
        exact hr

theorem itemUrl_ok_shape (r : Value) (u : Option Value) (h : itemUrl r = .ok u) :
    recKey r = u ∧ ∃ kvs ds, r = .dict kvs ∧ lookup kvs "data" = some (.dict ds) ∧
      lookup ds "EOSLogURL" = u := by
  cases r with
  | dict kvs =>
    simp only [itemUrl, pyIndex, bind, Except.bind] at h
    cases hl : lookup kvs "data" with
    | none => rw [hl] at h; simp at h
    | some d =>
      rw [hl] at h
      cases d with
      | dict ds =>
        simp only [pure, Except.pure, Except.ok.injEq] at h
        subst h
        exact ⟨by simp [recKey, hl], kvs, ds, rfl, hl, rfl⟩
      | str s => simp at h
      | int n => simp at h
      | bool b => simp at h
      | list xs => simp at h
  | str s => simp [itemUrl, pyIndex, bind, Except.bind] at h
  | int n => simp [itemUrl, pyIndex, bind, Except.bind] at h
  | bool b => simp [itemUrl, pyIndex, bind, Except.bind] at h
  | list xs => simp [itemUrl, pyIndex, bind, Except.bind] at h

theorem groupStep_ok (gs gs' : List (Option Value × List Value)) (r : Value)
    (h : groupStep gs r = .ok gs') :
    itemUrl r = .ok (recKey r) ∧ hashableKey (recKey r) = true ∧
      gs' = insertGrouped gs (recKey r) r := by
  simp only [groupStep, bind, Except.bind] at h
  cases hu : itemUrl r with
  | error e => rw [hu] at h; simp at h
  | ok u =>
    rw [hu] at h
    simp only [pure, Except.pure] at h
    have hk := (itemUrl_ok_shape r u hu).1
    by_cases hh : hashableKey u = true
    · rw [if_pos hh] at h
      simp only [Except.ok.injEq] at h
      subst hk
      exact ⟨rfl, hh, h.symm⟩
    · rw [if_neg hh] at h
      simp at h

theorem groupByUrl_ok (l : List Value) (gs : List (Option Value × List Value))
    (h : groupByUrl l = .ok gs) :
    (∀ r ∈ l, itemUrl r = .ok (recKey r) ∧ hashableKey (recKey r) = true) ∧
      gs = groupsSpec l := by
  induction l using List.reverseRecOn generalizing gs with
  | nil =>
    simp only [groupByUrl, List.foldlM_nil, pure, Except.pure, Except.ok.injEq] at h
    subst h
    exact ⟨by simp, by simp [groupsSpec, keysOf]⟩
  | append_singleton l r ih =>
    rw [groupByUrl] at h
    rcases (foldlM_ok_append groupStep [] l [r] gs).mp h with ⟨gs0, h0, h1⟩
    rcases (foldlM_ok_cons groupStep gs0 r [] gs).mp h1 with ⟨gs1, hstep, hnil⟩
    simp only [List.foldlM_nil, pure, Except.pure, Except.ok.injEq] at hnil
    subst hnil
    rcases ih gs0 h0 with ⟨hgood, rfl⟩
    rcases groupStep_ok _ _ r hstep with ⟨hurl, hhash, rfl⟩
    have hgood' : ∀ r' ∈ l ++ [r], itemUrl r' = .ok (recKey r') ∧
        hashableKey (recKey r') = true := by
      intro r' hr'
      rcases List.mem_append.mp hr' with hm | hm
      · exact hgood r' hm
      · rcases List.mem_singleton.mp hm with rfl
        exact ⟨hurl, hhash⟩
    refine ⟨hgood', ?_⟩
    have hall : ∀ r' ∈ l, hashableKey (recKey r') = true := fun r' hr' => (hgood r' hr').2
    have hkhash : ∀ k ∈ keysOf l, hashableKey k = true := keysOf_hashable l hall
    by_cases hany : (keysOf l).any (keyEq (recKey r)) = true
    · -- the new record's key was already seen
      have hmem : recKey r ∈ keysOf l := (any_keyEq_iff_mem _ _ hhash).mp hany
      rcases List.append_of_mem hmem with ⟨pre, post, hsplit⟩
      have hnd : (keysOf l).Nodup := keysOf_nodup l hall
      rw [hsplit] at hnd
      have hpre : recKey r ∉ pre := by
        intro hc
        rcases List.nodup_append.mp hnd with ⟨-, hnd2, hdisj⟩
        exact hdisj hc (by simp)
      have hpost : recKey r ∉ post := by
        rcases List.nodup_append.mp hnd with ⟨-, hnd2, -⟩
        exact (List.nodup_cons.mp hnd2).1
      -- unfold the spec groups along the key split
      rw [groupsSpec, hsplit, List.map_append, List.map_cons]
      have hfresh : ∀ kg ∈ pre.map (fun k =>
          (k, l.filter (fun r' => keyEq (recKey r') k))), keyEq kg.1 (recKey r) = false := by
        intro kg hkg
        rcases List.mem_map.mp hkg with ⟨k, hk, rfl⟩
        have hkh : hashableKey k = true := by
          apply hkhash
          rw [hsplit]
          exact List.mem_append.mpr (Or.inl hk)
        by_contra hc
        rw [Bool.not_eq_false] at hc
        rw [keyEq_eq _ _ hkh] at hc
        exact hpre (hc ▸ hk)
      rw [insertGrouped_found _ _ _ _ _ hfresh (keyEq_self _ hhash)]
      rw [groupsSpec, keysOf_append_one, if_pos hany, hsplit, List.map_append, List.map_cons]
      congr 1
      · -- groups of earlier keys are unchanged by the appended record
        apply List.map_congr_left
        intro k hk
        have hkh : hashableKey k = true := by
          apply hkhash
          rw [hsplit]
          exact List.mem_append.mpr (Or.inl hk)
        have hne : keyEq (recKey r) k = false := by
          by_contra hc
          rw [Bool.not_eq_false] at hc
          rw [keyEq_eq _ _ hhash] at hc
          exact hpre (hc ▸ hk)
        rw [List.filter_append]
        simp [hne]
      · congr 1
        · -- the matching key's group receives the record at the end
          rw [List.filter_append]
          simp [keyEq_self _ hhash]
        · -- later keys unchanged
          apply List.map_congr_left
          intro k hk
          have hkh : hashableKey k = true := by
            apply hkhash
            rw [hsplit]
            exact List.mem_append.mpr (Or.inr (List.mem_cons.mpr (Or.inr hk)))
          have hne : keyEq (recKey r) k = false := by
            by_contra hc
            rw [Bool.not_eq_false] at hc
            rw [keyEq_eq _ _ hhash] at hc
            exact hpost (hc ▸ hk)
          rw [List.filter_append]
          simp [hne]
    · -- a fresh key: the new group is appended at the end
      have hnotmem : recKey r ∉ keysOf l := by
        intro hc
        exact hany ((any_keyEq_iff_mem _ _ hhash).mpr hc)
      have hfresh : ∀ kg ∈ groupsSpec l, keyEq kg.1 (recKey r) = false := by
        intro kg hkg
        rcases List.mem_map.mp hkg with ⟨k, hk, rfl⟩
        have hkh : hashableKey k = true := hkhash k hk
        by_contra hc
        rw [Bool.not_eq_false] at hc
        rw [keyEq_eq _ _ hkh] at hc
        exact hnotmem (hc ▸ hk)
      rw [insertGrouped_fresh _ _ _ hfresh]
      conv_rhs => rw [groupsSpec, keysOf_append_one]
      rw [if_neg hany, List.map_append, List.map_singleton]
      congr 1
      · -- earlier groups unchanged
        rw [groupsSpec]
        apply List.map_congr_left
        intro k hk
        have hkh : hashableKey k = true := hkhash k hk
        have hne : keyEq (recKey r) k = false := by
          by_contra hc
          rw [Bool.not_eq_false] at hc
          rw [keyEq_eq _ _ hhash] at hc
          exact hnotmem (hc ▸ hk)
        rw [List.filter_append]
        simp [hne]
      · -- the new group contains exactly the new record
        have hempty : l.filter (fun r' => keyEq (recKey r') (recKey r)) = [] := by
          rw [List.filter_eq_nil_iff]
          intro r' hr'
          intro hc
          have hkh' : hashableKey (recKey r') = true := hall r' hr'
          rw [keyEq_eq _ _ hkh'] at hc
          exact hnotmem (hc ▸ ((mem_keysOf l (recKey r') hall).mpr ⟨r', hr', rfl⟩))
        rw [List.filter_append, hempty]
        simp [keyEq_self _ hhash]

/-! Characterisation of the output pass over the groups. -/

theorem outputs_ok (gs : List (Option Value × List Value)) (a0 b0 m s : List Value)
    (h : gs.foldlM outputStep (a0, b0) = .ok (m, s)) :
    ∃ M S, m = a0 ++ M ∧ s = b0 ++ S ∧
      (gs.filter (fun kg => decide (1 < kg.2.length))).mapM
        (fun kg => mergeGroup kg.2) = .ok M ∧
      S = (gs.filter (fun kg => ! decide (1 < kg.2.length))).filterMap
        (fun kg => kg.2.head?) := by
  induction gs generalizing a0 b0 with
  | nil =>
    simp only [List.foldlM_nil, pure, Except.pure, Except.ok.injEq, Prod.mk.injEq] at h
    obtain ⟨ha, hb⟩ := h
    exact ⟨[], [], by simp [ha], by simp [hb],
      rfl, by simp⟩
  | cons kg rest ih =>
    rcases (foldlM_ok_cons outputStep (a0, b0) kg rest (m, s)).mp h with ⟨ab1, hstep, hrest⟩
    obtain ⟨a1, b1⟩ := ab1
    by_cases hbig : 1 < kg.2.length
    · rw [outputStep, if_pos hbig] at hstep
      cases hm : mergeGroup kg.2 with
      | error e => rw [hm] at hstep; simp [Except.map] at hstep
      | ok mm =>
        rw [hm] at hstep
        simp only [Except.map, Except.ok.injEq, Prod.mk.injEq] at hstep
        obtain ⟨ha1, hb1⟩ := hstep
        rcases ih a1 b1 hrest with ⟨M', S', hmM, hsS, hmap, hS⟩
        refine ⟨mm :: M', S', ?_, ?_, ?_, ?_⟩
        · rw [hmM, ← ha1, List.append_assoc]
          rfl
        · rw [hsS, ← hb1]
        · rw [List.filter_cons_of_pos (by simpa using hbig)]
          rw [mapM_ok_cons]
          exact ⟨mm, M', hm, hmap, rfl⟩
        · rw [List.filter_cons_of_neg (by simpa using hbig)]
          exact hS
    · rw [outputStep, if_neg hbig] at hstep
      cases hkg : kg.2 with
      | nil => rw [hkg] at hstep; simp at hstep
      | cons x rest2 =>
        rw [hkg] at hstep
        simp only [Except.ok.injEq, Prod.mk.injEq] at hstep
        obtain ⟨ha1, hb1⟩ := hstep
        rcases ih a1 b1 hrest with ⟨M', S', hmM, hsS, hmap, hS⟩
        refine ⟨M', x :: S', ?_, ?_, ?_, ?_⟩
        · rw [hmM, ← ha1]
        · rw [hsS, ← hb1, List.append_assoc]
          rfl
        · rw [List.filter_cons_of_neg (by simpa using hbig)]
          exact hmap
        · rw [List.filter_cons_of_pos (by simpa using hbig), hS, List.filterMap_cons]
          simp [hkg]

/-! Key-set lemmas for the merge fold (field union). -/

theorem mergeField_ok_keys (acc acc' : Obj) (kv : String × Value)
    (h : mergeField acc kv = .ok acc') :
    ∀ k, k ∈ acc'.map Prod.fst ↔ k ∈ acc.map Prod.fst ∨ k = kv.1 := by
  rw [mergeField] at h
  cases hl : lookup acc kv.1 with
  | none =>
    rw [hl] at h
    simp only [Except.ok.injEq] at h
    subst h
    intro k
    simp
  | some cur =>
    cases hm : mergeValue cur kv.2 with
    | error e =>
      simp only [hl, hm, Except.map] at h
      exact absurd h (by simp)
    | ok v =>
      simp only [hl, hm, Except.map, Except.ok.injEq] at h
      subst h
      intro k
      exact mem_keys_setk acc kv.1 k v

theorem foldFields_ok_keys (fields : Obj) (acc acc' : Obj)
    (h : fields.foldlM mergeField acc = .ok acc') :
    ∀ k, k ∈ acc'.map Prod.fst ↔ k ∈ acc.map Prod.fst ∨ k ∈ fields.map Prod.fst := by
  induction fields generalizing acc with
  | nil =>
    simp only [List.foldlM_nil, pure, Except.pure, Except.ok.injEq] at h
    subst h
    simp
  | cons kv rest ih =>
    rcases (foldlM_ok_cons mergeField acc kv rest acc').mp h with ⟨acc1, hstep, hrest⟩
    intro k
    rw [ih acc1 hrest k, mergeField_ok_keys acc acc1 kv hstep k]
    simp only [List.map_cons, List.mem_cons]
    tauto

theorem mergeRecord_ok_keys (acc acc' : Obj) (d : Value)
    (h : mergeRecord acc d = .ok acc') :
    ∃ ds : Obj, pyIndex d "data" = .ok (.dict ds) ∧
      ∀ k, k ∈ acc'.map Prod.fst ↔ k ∈ acc.map Prod.fst ∨ k ∈ ds.map Prod.fst := by
  rw [mergeRecord] at h
  cases hd : pyIndex d "data" with
  | error e => rw [hd] at h; simp [bind, Except.bind] at h
  | ok dd =>
    rw [hd] at h
    simp only [bind, Except.bind] at h
    cases dd with
    | dict fields => exact ⟨fields, rfl, foldFields_ok_keys fields acc acc' h⟩
    | str s => simp at h
    | int n => simp at h
    | bool b => simp at h
    | list xs => simp at h

theorem foldRecords_ok_keys (group : List Value) (acc md : Obj)
    (h : group.foldlM mergeRecord acc = .ok md) :
    ∀ k, k ∈ md.map Prod.fst ↔ k ∈ acc.map Prod.fst ∨
      ∃ r ∈ group, ∃ ds : Obj, pyIndex r "data" = .ok (.dict ds) ∧ k ∈ ds.map Prod.fst := by
  induction group generalizing acc with
  | nil =>
    simp only [List.foldlM_nil, pure, Except.pure, Except.ok.injEq] at h
    subst h
    simp
  | cons r rest ih =>
    rcases (foldlM_ok_cons mergeRecord acc r rest md).mp h with ⟨acc1, hstep, hrest⟩
    rcases mergeRecord_ok_keys acc acc1 r hstep with ⟨ds, hds, hkeys⟩
    intro k
    rw [ih acc1 hrest k, hkeys k]
    constructor
    · rintro ((hk | hk) | ⟨r', hr', ds', hds', hk⟩)
      · exact Or.inl hk
      · exact Or.inr ⟨r, by simp, ds, hds, hk⟩
      · exact Or.inr ⟨r', by simp [hr'], ds', hds', hk⟩
    · rintro (hk | ⟨r', hr', ds', hds', hk⟩)
      · exact Or.inl (Or.inl hk)
      · rcases List.mem_cons.mp hr' with rfl | hr2
        · rw [hds] at hds'
          simp only [Except.ok.injEq, Value.dict.injEq] at hds'
          subst hds'
          exact Or.inl (Or.inr hk)
        · exact Or.inr ⟨r', hr2, ds', hds', hk⟩

theorem mergeGroup_ok_shape (group : List Value) (x : Value)
    (h : mergeGroup group = .ok x) :
    ∃ md : Obj, x = .dict [("data", .dict md)] ∧
      group.foldlM mergeRecord [] = .ok md := by
  rw [mergeGroup] at h
  cases hf : group.foldlM mergeRecord [] with
  | error e => rw [hf] at h; simp [bind, Except.bind] at h
  | ok md =>
    rw [hf] at h
    simp only [bind, Except.bind, pure, Except.pure, Except.ok.injEq] at h
    exact ⟨md, h.symm, rfl⟩

/-! Tracking of the `EOSLogURL` field through the merge fold. -/

theorem lookup_some_mem (kvs : Obj) (k : String) (v : Value)
    (h : lookup kvs k = some v) : (k, v) ∈ kvs := by
  induction kvs with
  | nil => simp [lookup] at h
  | cons kv rest ih =>
    obtain ⟨k', w⟩ := kv
    by_cases hk : k' = k
    · subst hk
      have h2 : w = v := by simpa [lookup] using h
      subst h2
      simp
    · simp only [lookup, if_neg hk] at h
      exact List.mem_cons.mpr (Or.inr (ih h))

theorem hashable_some_isPrim (u : Value) (h : hashableKey (some u) = true) :
    isPrim u = true := by
  cases u <;> simp_all [hashableKey, isPrim]

theorem mergeValue_prim_self (v : Value) (h : isPrim v = true) :
    mergeValue v v = .ok v := by
  cases v <;> simp_all [mergeValue, isPrim]

theorem mergeField_ok_other (acc acc' : Obj) (kv : String × Value)
    (hne : kv.1 ≠ "EOSLogURL") (h : mergeField acc kv = .ok acc') :
    lookup acc' "EOSLogURL" = lookup acc "EOSLogURL" := by
  rw [mergeField] at h
  cases hl : lookup acc kv.1 with
  | none =>
    rw [hl] at h
    simp only [Except.ok.injEq] at h
    subst h
    cases he : lookup acc "EOSLogURL" with
    | none =>
      rw [lookup_append_of_none acc [kv] "EOSLogURL" he]
      obtain ⟨k0, v0⟩ := kv
      simp only at hne
      simp [lookup, hne, he]
    | some w =>
      rw [lookup_append_of_some acc [kv] "EOSLogURL" w he]
  | some cur =>
    cases hm : mergeValue cur kv.2 with
    | error e =>
      simp only [hl, hm, Except.map] at h
      exact absurd h (by simp)
    | ok v =>
      simp only [hl, hm, Except.map, Except.ok.injEq] at h
      subst h
      exact lookup_setk_ne acc kv.1 "EOSLogURL" v (fun hh => hne hh.symm)

theorem mergeField_ok_eos (acc acc' : Obj) (v : Value) (hprim : isPrim v = true)
    (hcur : lookup acc "EOSLogURL" = none ∨ lookup acc "EOSLogURL" = some v)
    (h : mergeField acc ("EOSLogURL", v) = .ok acc') :
    lookup acc' "EOSLogURL" = some v := by
  rw [mergeField] at h
  rcases hcur with he | he
  · rw [he] at h
    simp only [Except.ok.injEq] at h
    subst h
    rw [lookup_append_of_none acc _ "EOSLogURL" he]
    simp [lookup]
  · simp only [he, mergeValue_prim_self v hprim, Except.map, Except.ok.injEq] at h
    subst h
    exact lookup_setk_self acc "EOSLogURL" v

theorem foldFields_eos_none (fields : Obj) (acc acc' : Obj)
    (hnot : "EOSLogURL" ∉ fields.map Prod.fst)
    (h : fields.foldlM mergeField acc = .ok acc') :
    lookup acc' "EOSLogURL" = lookup acc "EOSLogURL" := by
  induction fields generalizing acc with
  | nil =>
    simp only [List.foldlM_nil, pure, Except.pure, Except.ok.injEq] at h
    subst h
    rfl
  | cons kv rest ih =>
    rcases (foldlM_ok_cons mergeField acc kv rest acc').mp h with ⟨acc1, hstep, hrest⟩
    have hne : kv.1 ≠ "EOSLogURL" := by
      intro hh
      exact hnot (by simp [← hh])
    have hnot' : "EOSLogURL" ∉ rest.map Prod.fst := fun hh => hnot (by simp [hh])
    rw [ih acc1 hnot' hrest, mergeField_ok_other acc acc1 kv hne hstep]

theorem foldFields_eos_some (fields : Obj) (acc acc' : Obj) (v : Value)
    (hnd : (fields.map Prod.fst).Nodup) (hmem : ("EOSLogURL", v) ∈ fields)
    (hprim : isPrim v = true)
    (hcur : lookup acc "EOSLogURL" = none ∨ lookup acc "EOSLogURL" = some v)
    (h : fields.foldlM mergeField acc = .ok acc') :
    lookup acc' "EOSLogURL" = some v := by
  induction fields generalizing acc with
  | nil => simp at hmem
  | cons kv rest ih =>
    rcases (foldlM_ok_cons mergeField acc kv rest acc').mp h with ⟨acc1, hstep, hrest⟩
    obtain ⟨k0, v0⟩ := kv
    rw [List.map_cons] at hnd
    by_cases hk : k0 = "EOSLogURL"
    · subst hk
      have hnot' : ("EOSLogURL" : String) ∉ rest.map Prod.fst := (List.nodup_cons.mp hnd).1
      have hv : v0 = v := by
        rcases List.mem_cons.mp hmem with hh | hh
        · exact (congrArg Prod.snd hh).symm
        · exact absurd (List.mem_map.mpr ⟨("EOSLogURL", v), hh, rfl⟩) hnot'
      subst hv
      have h1 : lookup acc1 "EOSLogURL" = some v0 :=
        mergeField_ok_eos acc acc1 v0 hprim hcur hstep
      rw [foldFields_eos_none rest acc1 acc' hnot' hrest, h1]
    · have hmem' : ("EOSLogURL", v) ∈ rest := by
        rcases List.mem_cons.mp hmem with hh | hh
        · exact absurd (congrArg Prod.fst hh).symm hk
        · exact hh
      have h1 : lookup acc1 "EOSLogURL" = none ∨ lookup acc1 "EOSLogURL" = some v := by
        rw [mergeField_ok_other acc acc1 (k0, v0) hk hstep]
        exact hcur
      exact ih acc1 (List.nodup_cons.mp hnd).2 hmem' h1 hrest

theorem dataWF_nodup (r : Value) (kvs ds : Obj) (h1 : r = .dict kvs)
    (h2 : lookup kvs "data" = some (.dict ds)) (hwf : dataWF r = true) :
    (ds.map Prod.fst).Nodup := by
  subst h1
  rw [dataWF, h2] at hwf
  exact of_decide_eq_true hwf

theorem mergeRecord_eos (acc acc' : Obj) (r : Value) (k : Option Value)
    (hurl : itemUrl r = .ok k) (hwf : dataWF r = true) (hhash : hashableKey k = true)
    (hcur : lookup acc "EOSLogURL" = none ∨ lookup acc "EOSLogURL" = k)
    (h : mergeRecord acc r = .ok acc') :
    lookup acc' "EOSLogURL" = k := by
  rcases itemUrl_ok_shape r k hurl with ⟨-, kvs, ds, rfl, hdata, heos⟩
  have hpy : pyIndex (Value.dict kvs) "data" = .ok (.dict ds) := by
    simp [pyIndex, hdata]
  rw [mergeRecord, hpy] at h
  simp only [bind, Except.bind] at h
  cases k with
  | none =>
    have hnot : "EOSLogURL" ∉ ds.map Prod.fst := (lookup_eq_none_iff ds "EOSLogURL").mp heos
    rw [foldFields_eos_none ds acc acc' hnot h]
    rcases hcur with he | he
    · exact he
    · exact he
  | some u =>
    have hprim : isPrim u = true := hashable_some_isPrim u hhash
    have hmem : ("EOSLogURL", u) ∈ ds := lookup_some_mem ds "EOSLogURL" u heos
    have hnd : (ds.map Prod.fst).Nodup := dataWF_nodup _ kvs ds rfl hdata hwf
    exact foldFields_eos_some ds acc acc' u hnd hmem hprim hcur h

theorem foldRecords_eos (group : List Value) (acc md : Obj) (k : Option Value)
    (hmembers : ∀ r ∈ group, itemUrl r = .ok k ∧ dataWF r = true)
    (hhash : hashableKey k = true)
    (hcur : lookup acc "EOSLogURL" = k)
    (h : group.foldlM mergeRecord acc = .ok md) :
    lookup md "EOSLogURL" = k := by
  induction group generalizing acc with
  | nil =>
    simp only [List.foldlM_nil, pure, Except.pure, Except.ok.injEq] at h
    subst h
    exact hcur
  | cons r rest ih =>
    rcases (foldlM_ok_cons mergeRecord acc r rest md).mp h with ⟨acc1, hstep, hrest⟩
    have h1 : lookup acc1 "EOSLogURL" = k :=
      mergeRecord_eos acc acc1 r k (hmembers r (by simp)).1 (hmembers r (by simp)).2
        hhash (Or.inr hcur) hstep
    exact ih acc1 (fun r' hr' => hmembers r' (by simp [hr'])) h1 hrest

theorem mergeGroup_key (group : List Value) (k : Option Value) (x : Value)
    (hne : group ≠ [])
    (hmembers : ∀ r ∈ group, itemUrl r = .ok k ∧ dataWF r = true)
    (hhash : hashableKey k = true)
    (h : mergeGroup group = .ok x) :
    recKey x = k := by
  rcases mergeGroup_ok_shape group x h with ⟨md, rfl, hfold⟩
  cases group with
  | nil => exact absurd rfl hne
  | cons r rest =>
    rcases (foldlM_ok_cons mergeRecord [] r rest md).mp hfold with ⟨acc1, hstep, hrest⟩
    have h1 : lookup acc1 "EOSLogURL" = k :=
      mergeRecord_eos [] acc1 r k (hmembers r (by simp)).1 (hmembers r (by simp)).2
        hhash (Or.inl rfl) hstep
    have h2 : lookup md "EOSLogURL" = k :=
      foldRecords_eos rest acc1 md k (fun r' hr' => hmembers r' (by simp [hr'])) hhash h1 hrest
    simp [recKey, lookup, h2]

/-! The groups partition the input list. -/

theorem filters_flatten_perm (ks : List (Option Value)) (l : List Value)
    (hnd : ks.Nodup) (hkh : ∀ k ∈ ks, hashableKey k = true)
    (hall : ∀ r ∈ l, hashableKey (recKey r) = true)
    (hcov : ∀ r ∈ l, recKey r ∈ ks) :
    (ks.map (fun k => l.filter (fun r => keyEq (recKey r) k))).flatten.Perm l := by
  induction ks generalizing l with
  | nil =>
    have : l = [] := by
      cases l with
      | nil => rfl
      | cons r t => exact absurd (hcov r (by simp)) (by simp)
    subst this
    simp
  | cons k ks' ih =>
    rw [List.map_cons, List.flatten_cons]
    have hstep : ∀ k' ∈ ks',
        (l.filter (fun r => !keyEq (recKey r) k)).filter (fun r => keyEq (recKey r) k') =
          l.filter (fun r => keyEq (recKey r) k') := by
      intro k' hk'
      rw [List.filter_filter]
      apply List.filter_congr
      intro r hr
      by_cases hq : keyEq (recKey r) k' = true
      · have hrk : recKey r = k' := (keyEq_eq _ _ (hall r hr)).mp hq
        have hne : keyEq (recKey r) k = false := by
          by_contra hc
          rw [Bool.not_eq_false, keyEq_eq _ _ (hall r hr)] at hc
          rw [hrk] at hc
          exact (List.nodup_cons.mp hnd).1 (hc ▸ hk')
        simp [hq, hne]
      · simp [Bool.eq_false_iff.mpr hq]
    have hmapeq : ks'.map (fun k' => l.filter (fun r => keyEq (recKey r) k')) =
        ks'.map (fun k' => (l.filter (fun r => !keyEq (recKey r) k)).filter
          (fun r => keyEq (recKey r) k')) := by
      apply List.map_congr_left
      intro k' hk'
      exact (hstep k' hk').symm
    rw [hmapeq]
    have hsub : ∀ r ∈ l.filter (fun r => !keyEq (recKey r) k), r ∈ l :=
      fun r hr => (List.mem_filter.mp hr).1
    have ih2 := ih (l.filter (fun r => !keyEq (recKey r) k))
      (List.nodup_cons.mp hnd).2
      (fun k' hk' => hkh k' (by simp [hk']))
      (fun r hr => hall r (hsub r hr))
      (fun r hr => by
        rcases List.mem_filter.mp hr with ⟨hrl, hneg⟩
        rcases List.mem_cons.mp (hcov r hrl) with hh | hh
        · rw [Bool.not_eq_eq_eq_not, Bool.not_true] at hneg
          rw [← hh] at hneg
          rw [keyEq_self _ (hall r hrl)] at hneg
          cases hneg
        · exact hh)
    exact (List.Perm.append_left _ ih2).trans (List.filter_append_perm _ l)

/-! Glue facts about a successful run of the merger. -/

theorem merge_ok_split (l m s : List Value) (h : merge_dicts_by_url l = .ok (m, s)) :
    ∃ gs, groupByUrl l = .ok gs ∧ gs.foldlM outputStep ([], []) = .ok (m, s) := by
  rw [merge_dicts_by_url] at h
  cases hg : groupByUrl l with
  | error e => rw [hg] at h; simp [bind, Except.bind] at h
  | ok gs =>
    rw [hg] at h
    simp only [bind, Except.bind] at h
    exact ⟨gs, rfl, h⟩

theorem merge_ok_char (l m s : List Value) (h : merge_dicts_by_url l = .ok (m, s)) :
    (∀ r ∈ l, itemUrl r = .ok (recKey r) ∧ hashableKey (recKey r) = true) ∧
    groupByUrl l = .ok (groupsSpec l) ∧
    ((groupsSpec l).filter (fun kg => decide (1 < kg.2.length))).mapM
      (fun kg => mergeGroup kg.2) = .ok m ∧
    s = ((groupsSpec l).filter (fun kg => ! decide (1 < kg.2.length))).filterMap
      (fun kg => kg.2.head?) := by
  rcases merge_ok_split l m s h with ⟨gs, hg, hout⟩
  rcases groupByUrl_ok l gs hg with ⟨hgood, rfl⟩
  rcases outputs_ok (groupsSpec l) [] [] m s hout with ⟨M, S, hm, hs, hmap, hS⟩
  simp only [List.nil_append] at hm hs
  subst hm
  subst hs
  exact ⟨hgood, hg, hmap, hS⟩

theorem mem_groupsSpec (l : List Value) (kg : Option Value × List Value) :
    kg ∈ groupsSpec l ↔ ∃ k ∈ keysOf l,
      kg = (k, l.filter (fun r => keyEq (recKey r) k)) := by
  rw [groupsSpec]
  constructor
  · intro h
    rcases List.mem_map.mp h with ⟨k, hk, rfl⟩
    exact ⟨k, hk, rfl⟩
  · rintro ⟨k, hk, rfl⟩
    exact List.mem_map.mpr ⟨k, hk, rfl⟩

theorem group_filter_nonempty (l : List Value) (k : Option Value)
    (hall : ∀ r ∈ l, hashableKey (recKey r) = true) (hk : k ∈ keysOf l) :
    l.filter (fun r => keyEq (recKey r) k) ≠ [] := by
  rcases (mem_keysOf l k hall).mp hk with ⟨r, hr, rfl⟩
  intro hc
  rw [List.filter_eq_nil_iff] at hc
  exact hc r hr (keyEq_self _ (hall r hr))

theorem mem_group_facts (l : List Value) (k : Option Value) (r : Value)
    (hall : ∀ r' ∈ l, hashableKey (recKey r') = true)
    (hr : r ∈ l.filter (fun r' => keyEq (recKey r') k)) :
    r ∈ l ∧ recKey r = k := by
  rcases List.mem_filter.mp hr with ⟨hrl, hrk⟩
  exact ⟨hrl, (keyEq_eq _ _ (hall r hrl)).mp hrk⟩

theorem sum_map_filter_split {α : Type} (p : α → Bool) (f : α → Nat) (gs : List α) :
    ((gs.filter p).map f).sum + ((gs.filter (fun x => !p x)).map f).sum =
      (gs.map f).sum := by
  induction gs with
  | nil => simp
  | cons kg rest ih =>
    by_cases hp : p kg
    · rw [List.filter_cons_of_pos hp, List.filter_cons_of_neg (by simp [hp])]
      simp only [List.map_cons, List.sum_cons, List.map_cons]
      omega
    · rw [List.filter_cons_of_neg hp, List.filter_cons_of_pos (by simp [hp])]
      simp only [List.map_cons, List.sum_cons]
      omega

theorem length_filterMap_all_some {α β : Type} (f : α → Option β) (l : List α)
    (h : ∀ x ∈ l, ∃ y, f x = some y) : (l.filterMap f).length = l.length := by
  induction l with
  | nil => simp
  | cons x rest ih =>
    rcases h x (by simp) with ⟨y, hy⟩
    rw [List.filterMap_cons, hy]
    simp only [List.length_cons]
    rw [ih (fun x' hx' => h x' (by simp [hx']))]

theorem sum_map_all_one {α : Type} (f : α → Nat) (l : List α)
    (h : ∀ x ∈ l, f x = 1) : (l.map f).sum = l.length := by
  induction l with
  | nil => simp
  | cons x rest ih =>
    rw [List.map_cons, List.sum_cons, h x (by simp),
      ih (fun x' hx' => h x' (by simp [hx']))]
    simp [Nat.add_comm]

theorem head?_mem {α : Type} (l : List α) (x : α) (h : l.head? = some x) : x ∈ l := by
  cases l with
  | nil => simp at h
  | cons a t =>
    simp only [List.head?_cons, Option.some.injEq] at h
    subst h
    simp

/-- A merged output record comes from a key whose group is large, and its
own key is that group's key. -/
theorem mem_merged_facts (l m s : List Value) (x : Value)
    (hwf : ∀ r ∈ l, dataWF r = true)
    (h : merge_dicts_by_url l = .ok (m, s)) (hx : x ∈ m) :
    ∃ k ∈ keysOf l, 1 < (l.filter (fun r => keyEq (recKey r) k)).length ∧
      mergeGroup (l.filter (fun r => keyEq (recKey r) k)) = .ok x ∧ recKey x = k := by
  rcases merge_ok_char l m s h with ⟨hgood, -, hmap, -⟩
  have hall : ∀ r ∈ l, hashableKey (recKey r) = true := fun r hr => (hgood r hr).2
  rcases mapM_ok_forward _ _ _ hmap x hx with ⟨kg, hkg, hmg⟩
  rcases List.mem_filter.mp hkg with ⟨hkgs, hbig⟩
  rcases (mem_groupsSpec l kg).mp hkgs with ⟨k, hk, rfl⟩
  simp only [decide_eq_true_eq] at hbig
  have hkey : recKey x = k := by
    apply mergeGroup_key (l.filter (fun r => keyEq (recKey r) k)) k x
    · exact group_filter_nonempty l k hall hk
    · intro r hr
      rcases mem_group_facts l k r hall hr with ⟨hrl, hrk⟩
      exact ⟨hrk ▸ (hgood r hrl).1, hwf r hrl⟩
    · exact keysOf_hashable l hall k hk
    · exact hmg
  exact ⟨k, hk, hbig, hmg, hkey⟩

/-- An unmatched output record is an input record whose group is small. -/
theorem mem_singles_facts (l m s : List Value) (x : Value)
    (h : merge_dicts_by_url l = .ok (m, s)) (hx : x ∈ s) :
    ∃ k ∈ keysOf l, ¬ 1 < (l.filter (fun r => keyEq (recKey r) k)).length ∧
      x ∈ l ∧ recKey x = k := by
  rcases merge_ok_char l m s h with ⟨hgood, -, -, hS⟩
  have hall : ∀ r ∈ l, hashableKey (recKey r) = true := fun r hr => (hgood r hr).2
  rw [hS] at hx
  rcases List.mem_filterMap.mp hx with ⟨kg, hkg, hhead⟩
  rcases List.mem_filter.mp hkg with ⟨hkgs, hsmall⟩
  rcases (mem_groupsSpec l kg).mp hkgs with ⟨k, hk, rfl⟩
  simp only [Bool.not_eq_eq_eq_not, Bool.not_true, decide_eq_false_iff_not] at hsmall
  have hxg : x ∈ l.filter (fun r => keyEq (recKey r) k) := head?_mem _ x hhead
  rcases mem_group_facts l k x hall hxg with ⟨hxl, hxk⟩
  exact ⟨k, hk, hsmall, hxl, hxk⟩

/-- C1: for every input sequence accepted by the merger, the records of
the groups are a permutation of the input (every record is in exactly one
group), group keys are pairwise distinct, the records folded into merged
outputs plus the unmatched outputs account for every input record, and no
merged output equals an unmatched output. -/
theorem merge_partition_complete (l m s : List Value)
    (hwf : ∀ r ∈ l, dataWF r = true)
    (h : merge_dicts_by_url l = .ok (m, s)) :
    ∃ gs, groupByUrl l = .ok gs ∧
      (gs.map Prod.snd).flatten.Perm l ∧
      (gs.map Prod.fst).Nodup ∧
      ((gs.filter (fun kg => decide (1 < kg.2.length))).map
        (fun kg => kg.2.length)).sum + s.length = l.length ∧
      ∀ x ∈ m, x ∉ s := by
  rcases merge_ok_char l m s h with ⟨hgood, hg, hmap, hS⟩
  have hall : ∀ r ∈ l, hashableKey (recKey r) = true := fun r hr => (hgood r hr).2
  refine ⟨groupsSpec l, hg, ?_, ?_, ?_, ?_⟩
  · have hsnd : (groupsSpec l).map Prod.snd =
        (keysOf l).map (fun k => l.filter (fun r => keyEq (recKey r) k)) := by
      rw [groupsSpec, List.map_map]
      rfl
    rw [hsnd]
    exact filters_flatten_perm (keysOf l) l (keysOf_nodup l hall)
      (keysOf_hashable l hall) hall
      (fun r hr => (mem_keysOf l (recKey r) hall).mpr ⟨r, hr, rfl⟩)
  · have hfst : (groupsSpec l).map Prod.fst = keysOf l := by
      rw [groupsSpec, List.map_map]
      have hcomp : (Prod.fst ∘ fun k => (k, l.filter (fun r => keyEq (recKey r) k))) =
          fun k : Option Value => k := rfl
      rw [hcomp, List.map_id']
    rw [hfst]
    exact keysOf_nodup l hall
  · -- record counting
    have hlen : ((groupsSpec l).map (fun kg => kg.2.length)).sum = l.length := by
      have hsnd : (groupsSpec l).map Prod.snd =
          (keysOf l).map (fun k => l.filter (fun r => keyEq (recKey r) k)) := by
        rw [groupsSpec, List.map_map]
        rfl
      have hperm := filters_flatten_perm (keysOf l) l (keysOf_nodup l hall)
        (keysOf_hashable l hall) hall
        (fun r hr => (mem_keysOf l (recKey r) hall).mpr ⟨r, hr, rfl⟩)
      have hl1 : ((groupsSpec l).map Prod.snd).flatten.length = l.length := by
        rw [hsnd]
        exact hperm.length_eq
      rw [List.length_flatten, List.map_map] at hl1
      exact hl1
    have hsplit : (((groupsSpec l).filter (fun kg => decide (1 < kg.2.length))).map
          (fun kg => kg.2.length)).sum +
        (((groupsSpec l).filter (fun kg => !decide (1 < kg.2.length))).map
          (fun kg => kg.2.length)).sum =
        ((groupsSpec l).map (fun kg => kg.2.length)).sum :=
      sum_map_filter_split _ _ _
    have hsmall1 : ∀ kg ∈ (groupsSpec l).filter
        (fun kg => !decide (1 < kg.2.length)), kg.2.length = 1 := by
      intro kg hkg
      rcases List.mem_filter.mp hkg with ⟨hkgs, hsm⟩
      rcases (mem_groupsSpec l kg).mp hkgs with ⟨k, hk, rfl⟩
      have hsm3 : ¬ 1 < (l.filter (fun r => keyEq (recKey r) k)).length := by
        simpa using hsm
      have hne := group_filter_nonempty l k hall hk
      have hlen0 : (l.filter (fun r => keyEq (recKey r) k)).length ≠ 0 := by
        intro hc
        exact hne (List.length_eq_zero.mp hc)
      show (l.filter (fun r => keyEq (recKey r) k)).length = 1
      omega
    have hsum_small : ((groupsSpec l).filter (fun kg => !decide (1 < kg.2.length))).length =
        (((groupsSpec l).filter (fun kg => !decide (1 < kg.2.length))).map
          (fun kg => kg.2.length)).sum := by
      rw [sum_map_all_one _ _ hsmall1]
    have hs_len : s.length = ((groupsSpec l).filter
        (fun kg => !decide (1 < kg.2.length))).length := by
      rw [hS]
      apply length_filterMap_all_some
      intro kg hkg
      rcases List.mem_filter.mp hkg with ⟨hkgs, -⟩
      rcases (mem_groupsSpec l kg).mp hkgs with ⟨k, hk, rfl⟩
      have hne := group_filter_nonempty l k hall hk
      cases hc : l.filter (fun r => keyEq (recKey r) k) with
      | nil => exact absurd hc hne
      | cons a t => exact ⟨a, by simp⟩
    rw [hs_len, hsum_small, ← hlen]
    exact hsplit
  · intro x hxm hxs
    rcases mem_merged_facts l m s x hwf h hxm with ⟨k, hk, hbig, -, hkey⟩
    rcases mem_singles_facts l m s x h hxs with ⟨k', hk', hsmall, -, hkey'⟩
    rw [hkey] at hkey'
    subst hkey'
    exact hsmall hbig

/-- C4: a completed merge of a group yields a record whose single `data`
dict has exactly the union of the members' field names. -/
theorem merged_field_union (group : List Value) (x : Value)
    (h2 : 2 ≤ group.length) (h : mergeGroup group = .ok x) :
    ∃ M : Obj, x = .dict [("data", .dict M)] ∧
      ∀ k : String, k ∈ M.map Prod.fst ↔
        ∃ r ∈ group, ∃ ds : Obj, pyIndex r "data" = .ok (.dict ds) ∧
          k ∈ ds.map Prod.fst := by
  rcases mergeGroup_ok_shape group x h with ⟨M, rfl, hfold⟩
  refine ⟨M, rfl, ?_⟩
  intro k
  rw [foldRecords_ok_keys group [] M hfold k]
  simp

/-- C10: every merged output is a fresh record with the single top-level
field `data`, and every unmatched output is an input record, returned
with all its top-level fields intact. -/
theorem merged_shape_singles_intact (l m s : List Value)
    (h : merge_dicts_by_url l = .ok (m, s)) :
    (∀ x ∈ m, ∃ M : Obj, x = .dict [("data", .dict M)]) ∧ ∀ x ∈ s, x ∈ l := by
  rcases merge_ok_char l m s h with ⟨hgood, -, hmap, -⟩
  constructor
  · intro x hx
    rcases mapM_ok_forward _ _ _ hmap x hx with ⟨kg, -, hmg⟩
    rcases mergeGroup_ok_shape kg.2 x hmg with ⟨M, rfl, -⟩
    exact ⟨M, rfl⟩
  · intro x hx
    rcases mem_singles_facts l m s x h hx with ⟨k, hk, hsm, hxl, hxk⟩
    exact hxl

/-- C9: records without an `EOSLogURL` key are grouped together under the
absent key; two or more of them are folded into one merged record and
none of them is returned unmatched. -/
theorem keyless_records_grouped (l m s : List Value)
    (h : merge_dicts_by_url l = .ok (m, s))
    (h2 : 2 ≤ (l.filter (fun r => keyEq (recKey r) none)).length) :
    (∃ gs, groupByUrl l = .ok gs ∧
      (none, l.filter (fun r => keyEq (recKey r) none)) ∈ gs) ∧
    (∃ mm ∈ m, mergeGroup (l.filter (fun r => keyEq (recKey r) none)) = .ok mm) ∧
    ∀ x ∈ s, recKey x ≠ none := by
  rcases merge_ok_char l m s h with ⟨hgood, hg, hmap, hS⟩
  have hall : ∀ r ∈ l, hashableKey (recKey r) = true := fun r hr => (hgood r hr).2
  obtain ⟨r0, hr0⟩ : ∃ r0, r0 ∈ l.filter (fun r => keyEq (recKey r) none) := by
    cases hcase : l.filter (fun r => keyEq (recKey r) none) with
    | nil => rw [hcase] at h2; simp at h2
    | cons a t => exact ⟨a, hcase ▸ List.mem_cons_self a t⟩
  rcases mem_group_facts l none r0 hall hr0 with ⟨hr0l, hr0k⟩
  have hmemk : (none : Option Value) ∈ keysOf l :=
    (mem_keysOf l none hall).mpr ⟨r0, hr0l, hr0k⟩
  refine ⟨⟨groupsSpec l, hg, (mem_groupsSpec l _).mpr ⟨none, hmemk, rfl⟩⟩, ?_, ?_⟩
  · have hbig : (none, l.filter (fun r => keyEq (recKey r) none)) ∈
        (groupsSpec l).filter (fun kg => decide (1 < kg.2.length)) := by
      refine List.mem_filter.mpr ⟨(mem_groupsSpec l _).mpr ⟨none, hmemk, rfl⟩, ?_⟩
      simp only [decide_eq_true_eq]
      omega
    rcases mapM_ok_backward _ _ _ hmap _ hbig with ⟨y, hy, hmg⟩
    exact ⟨y, hy, hmg⟩
  · intro x hx hnone
    rcases mem_singles_facts l m s x h hx with ⟨k, hk, hsm, hxl, hxk⟩
    rw [hnone] at hxk
    subst hxk
    apply hsm
    omega

/-! Encounter order of the unmatched output. -/

theorem foldl_keys_eq_newKeys (l : List Value) :
    ∀ seen, l.foldl (fun acc r =>
        if acc.any (keyEq (recKey r)) then acc else acc ++ [recKey r]) seen =
      seen ++ newKeys seen l := by
  induction l with
  | nil => intro seen; simp [newKeys]
  | cons r t ih =>
    intro seen
    rw [List.foldl_cons, newKeys]
    by_cases hs : seen.any (keyEq (recKey r)) = true
    · rw [if_pos hs, if_pos hs, ih seen]
    · rw [if_neg hs, if_neg hs, ih (seen ++ [recKey r]), List.append_assoc]
      rfl

theorem keysOf_eq_newKeys (l : List Value) : keysOf l = newKeys [] l := by
  rw [keysOf, foldl_keys_eq_newKeys l []]
  rfl

theorem filterMap_filter_eq {α β : Type} (p : α → Bool) (f : α → Option β)
    (l : List α) :
    (l.filter p).filterMap f = l.filterMap (fun x => if p x then f x else none) := by
  induction l with
  | nil => rfl
  | cons x rest ih =>
    by_cases hp : p x = true
    · rw [List.filter_cons_of_pos hp, List.filterMap_cons, List.filterMap_cons]
      rw [if_pos hp, ih]
    · rw [List.filter_cons_of_neg (by simp [hp]), List.filterMap_cons, ih, if_neg hp]

theorem countP_pos_of_mem {α : Type} (p : α → Bool) (l : List α) (x : α)
    (hx : x ∈ l) (hp : p x = true) : 1 ≤ l.countP p := by
  induction l with
  | nil => simp at hx
  | cons y rest ih =>
    rw [List.countP_cons]
    rcases List.mem_cons.mp hx with rfl | hx2
    · simp [hp]
    · have := ih hx2
      omega

theorem enc_lemma (t : List Value) : ∀ p : List Value,
    (∀ r ∈ p ++ t, hashableKey (recKey r) = true) →
    (newKeys (keysOf p) t).filterMap
      (fun k => if (p ++ t).countP (fun r => keyEq (recKey r) k) = 1
        then ((p ++ t).filter (fun r => keyEq (recKey r) k)).head? else none)
    = t.filter (fun r =>
        decide ((p ++ t).countP (fun r2 => keyEq (recKey r2) (recKey r)) = 1)) := by
  induction t with
  | nil =>
    intro p hall
    simp [newKeys]
  | cons r t' ih =>
    intro p hall
    have hk0 : hashableKey (recKey r) = true := hall r (by simp)
    have hallp : ∀ r' ∈ p, hashableKey (recKey r') = true :=
      fun r' hr' => hall r' (by simp [hr'])
    have happ : (p ++ [r]) ++ t' = p ++ r :: t' := by simp
    have hall2 : ∀ r' ∈ (p ++ [r]) ++ t', hashableKey (recKey r') = true := by
      rw [happ]
      exact hall
    have ih2 := ih (p ++ [r]) hall2
    rw [happ] at ih2
    rw [newKeys]
    by_cases hseen : (keysOf p).any (keyEq (recKey r)) = true
    · rw [if_pos hseen]
      have hks : keysOf (p ++ [r]) = keysOf p := by
        rw [keysOf_append_one, if_pos hseen]
      rw [hks] at ih2
      rw [ih2]
      have hmem : recKey r ∈ keysOf p := (any_keyEq_iff_mem _ _ hk0).mp hseen
      rcases (mem_keysOf p (recKey r) hallp).mp hmem with ⟨rp, hrp, hrpk⟩
      have hcount : ¬ (p ++ r :: t').countP
          (fun r2 => keyEq (recKey r2) (recKey r)) = 1 := by
        rw [List.countP_append, List.countP_cons]
        have h1 : 1 ≤ p.countP (fun r2 => keyEq (recKey r2) (recKey r)) :=
          countP_pos_of_mem _ p rp hrp (by rw [hrpk]; exact keyEq_self _ hk0)
        have h2 : keyEq (recKey r) (recKey r) = true := keyEq_self _ hk0
        simp only [h2, if_true]
        omega
      rw [List.filter_cons_of_neg (by simpa using hcount)]
    · rw [if_neg hseen]
      have hks : keysOf (p ++ [r]) = keysOf p ++ [recKey r] := by
        rw [keysOf_append_one, if_neg hseen]
      rw [hks] at ih2
      have hp0 : p.countP (fun r2 => keyEq (recKey r2) (recKey r)) = 0 := by
        rw [List.countP_eq_zero]
        intro rp hrp hc
        have : recKey rp = recKey r := (keyEq_eq _ _ (hallp rp hrp)).mp hc
        exact hseen ((any_keyEq_iff_mem _ _ hk0).mpr
          ((mem_keysOf p (recKey r) hallp).mpr ⟨rp, hrp, this⟩))
      have hpfilter : p.filter (fun r2 => keyEq (recKey r2) (recKey r)) = [] := by
        rw [List.filter_eq_nil_iff]
        intro rp hrp hc
        have : recKey rp = recKey r := (keyEq_eq _ _ (hallp rp hrp)).mp hc
        exact hseen ((any_keyEq_iff_mem _ _ hk0).mpr
          ((mem_keysOf p (recKey r) hallp).mpr ⟨rp, hrp, this⟩))
      have hcnt : (p ++ r :: t').countP (fun r2 => keyEq (recKey r2) (recKey r)) =
          1 + t'.countP (fun r2 => keyEq (recKey r2) (recKey r)) := by
        rw [List.countP_append, List.countP_cons, hp0, keyEq_self _ hk0]
        simp [Nat.add_comm]
      rw [List.filterMap_cons]
      by_cases hz : t'.countP (fun r2 => keyEq (recKey r2) (recKey r)) = 0
      · have hcond : (p ++ r :: t').countP
            (fun r2 => keyEq (recKey r2) (recKey r)) = 1 := by
          rw [hcnt, hz]
        rw [if_pos hcond]
        have hhead : ((p ++ r :: t').filter
            (fun r2 => keyEq (recKey r2) (recKey r))).head? = some r := by
          rw [List.filter_append, hpfilter]
          simp [keyEq_self _ hk0]
        rw [hhead, ih2]
        rw [List.filter_cons_of_pos (by simpa using hcond)]
      · have hcond : ¬ (p ++ r :: t').countP
            (fun r2 => keyEq (recKey r2) (recKey r)) = 1 := by
          rw [hcnt]
          omega
        rw [if_neg hcond, ih2]
        rw [List.filter_cons_of_neg (by simpa using hcond)]

/-- C6: the merger's outputs are ordered by first-seen key: the merged
records are the folds of the multi-record groups in first-occurrence key
order with the records of each group taken in input order, and the
unmatched records are exactly the unique-key input records in encounter
order. -/
theorem merge_output_order (l m s : List Value)
    (h : merge_dicts_by_url l = .ok (m, s)) :
    (multiKeys l).mapM
      (fun k => mergeGroup (l.filter (fun r => keyEq (recKey r) k))) = .ok m ∧
    s = l.filter (fun r =>
      decide (l.countP (fun r2 => keyEq (recKey r2) (recKey r)) = 1)) := by
  rcases merge_ok_char l m s h with ⟨hgood, -, hmap, hS⟩
  have hall : ∀ r ∈ l, hashableKey (recKey r) = true := fun r hr => (hgood r hr).2
  constructor
  · have hfm : (groupsSpec l).filter (fun kg => decide (1 < kg.2.length)) =
        ((keysOf l).filter (fun k =>
          decide (1 < (l.filter (fun r => keyEq (recKey r) k)).length))).map
          (fun k => (k, l.filter (fun r => keyEq (recKey r) k))) := by
      rw [groupsSpec, List.filter_map]
      rfl
    have hkeys : (keysOf l).filter (fun k =>
        decide (1 < (l.filter (fun r => keyEq (recKey r) k)).length)) = multiKeys l := by
      rw [multiKeys]
      apply List.filter_congr
      intro k hk
      rw [List.countP_eq_length_filter]
    rw [hfm, hkeys, mapM_map_comp] at hmap
    exact hmap
  · have hsm : s = ((keysOf l).filter (fun k =>
        !decide (1 < (l.filter (fun r => keyEq (recKey r) k)).length))).filterMap
        (fun k => (l.filter (fun r => keyEq (recKey r) k)).head?) := by
      rw [hS, groupsSpec, List.filter_map, List.filterMap_map]
      rfl
    have hsm2 : s = (keysOf l).filterMap (fun k =>
        if l.countP (fun r => keyEq (recKey r) k) = 1
        then (l.filter (fun r => keyEq (recKey r) k)).head? else none) := by
      rw [hsm, filterMap_filter_eq]
      apply List.filterMap_congr
      intro k hk
      rw [List.countP_eq_length_filter]
      rcases Nat.lt_or_ge 1 (l.filter (fun r => keyEq (recKey r) k)).length with hgt | hle
      · have hne1 : ¬ (l.filter (fun r => keyEq (recKey r) k)).length = 1 := by omega
        rw [if_neg hne1]
        simp [hgt]
      · have hne := group_filter_nonempty l k hall hk
        have hlen0 : (l.filter (fun r => keyEq (recKey r) k)).length ≠ 0 := by
          intro hc
          exact hne (List.length_eq_zero.mp hc)
        have h1 : (l.filter (fun r => keyEq (recKey r) k)).length = 1 := by omega
        rw [if_pos h1]
        simp [h1]
    have henc := enc_lemma l [] (by simpa using hall)
    have hk0 : keysOf ([] : List Value) = [] := rfl
    rw [hk0, ← keysOf_eq_newKeys] at henc
    simp only [List.nil_append] at henc
    rw [hsm2, henc]

/-! Deduplication facts and key-derivation theorems. -/

theorem pyListGet_ok (l : List String) (i : Nat) (h : i < l.length) :
    pyListGet l i = .ok (l.getD i "") := by
  simp [pyListGet, List.get?_eq_getElem?, List.getElem?_eq_getElem h, List.getD]

theorem primEq_iff (x y : Value) (hx : isPrim x = true) : primEq x y = true ↔ x = y := by
  cases x <;> cases y <;> simp_all [primEq, isPrim]

theorem mem_dedupPrim (l : List Value) (hl : ∀ x ∈ l, isPrim x = true) (v : Value) :
    v ∈ dedupPrim l ↔ v ∈ l := by
  induction l with
  | nil => simp [dedupPrim]
  | cons x rest ih =>
    have hx : isPrim x = true := hl x (by simp)
    have hrest : ∀ y ∈ rest, isPrim y = true := fun y hy => hl y (by simp [hy])
    by_cases h : rest.any (primEq x)
    · have hxr : x ∈ rest := by
        rcases List.any_eq_true.mp h with ⟨y, hy, hxy⟩
        rw [primEq_iff x y hx] at hxy
        exact hxy ▸ hy
      simp only [dedupPrim, h, if_true, ih hrest, List.mem_cons]
      constructor
      · exact fun h2 => Or.inr h2
      · rintro (rfl | h2)
        · exact hxr
        · exact h2
    · simp only [dedupPrim, h, Bool.false_eq_true, if_false, List.mem_cons, ih hrest]

theorem nodup_dedupPrim (l : List Value) (hl : ∀ x ∈ l, isPrim x = true) :
    (dedupPrim l).Nodup := by
  induction l with
  | nil => simp [dedupPrim]
  | cons x rest ih =>
    have hx : isPrim x = true := hl x (by simp)
    have hrest : ∀ y ∈ rest, isPrim y = true := fun y hy => hl y (by simp [hy])
    by_cases h : rest.any (primEq x)
    · simpa [dedupPrim, h] using ih hrest
    · have hxr : x ∉ rest := by
        intro hmem
        exact h (List.any_eq_true.mpr ⟨x, hmem, (primEq_iff x x hx).mpr rfl⟩)
      simp only [dedupPrim, h, Bool.false_eq_true, if_false, List.nodup_cons]
      exact ⟨fun hc => hxr ((mem_dedupPrim rest hrest x).mp hc), ih hrest⟩

/-- C2: an HTC record carrying `WMAgent_SubTaskName`, `ScheddName` and a
space-separated `Args` with at least three tokens gets the key
base + subtask + `/` + schedd + `-` + second token + `-` + third token +
`-log.tar.gz` written into its `data`, and its `_source` is emitted. -/
theorem htc_key_correct
    (entry : Value) (es ss ds : Obj) (sub sched argsStr : String)
    (h1 : entry = .dict es) (h2 : lookup es "_source" = some (.dict ss))
    (h3 : lookup ss "data" = some (.dict ds))
    (hargs : lookup ds "Args" = some (.str argsStr))
    (hsub : lookup ds "WMAgent_SubTaskName" = some (.str sub))
    (hsched : lookup ds "ScheddName" = some (.str sched))
    (hlen : 3 ≤ (pySplit argsStr ' ').length) :
    processHtcEntry entry =
      .ok (.dict (setk ss "data" (.dict (setk ds "EOSLogURL"
        (.str (eosUrlBase ++ sub ++ "/" ++ sched ++ "-" ++
          (pySplit argsStr ' ').getD 1 "" ++ "-" ++
          (pySplit argsStr ' ').getD 2 "" ++ "-log.tar.gz")))))) := by
  have g1 := pyListGet_ok (pySplit argsStr ' ') 1 (by omega)
  have g2 := pyListGet_ok (pySplit argsStr ' ') 2 (by omega)
  simp [processHtcEntry, h1, pyIndex, h2, h3, hargs, hsub, hsched, pyStrAttr,
    pyStrConcat, g1, g2, pySet, bind, Except.bind]

/-- C3: a WMA record with a non-empty `EOSLogURL` passes through with its
fields untouched and that value acting as the key; otherwise the key
base + task + `/` + host + `-` + fwjr_id + `-log.tar.gz` is derived from
`task`, `meta_data.host` and `meta_data.fwjr_id` and written back. -/
theorem wma_key_correct
    (entry : Value) (es ss ds : Obj)
    (h1 : entry = .dict es) (h2 : lookup es "_source" = some (.dict ss))
    (h3 : lookup ss "data" = some (.dict ds)) :
    (∀ t, lookup ds "EOSLogURL" = some (.str t) → t ≠ "" →
      processWmaEntry entry = .ok (.dict ss)) ∧
    (emptyLog (lookup ds "EOSLogURL") = true →
     ∀ task host fwjr mds,
      lookup ds "task" = some (.str task) →
      lookup ds "meta_data" = some (.dict mds) →
      lookup mds "host" = some (.str host) →
      lookup mds "fwjr_id" = some (.str fwjr) →
      processWmaEntry entry = .ok (.dict (setk ss "data" (.dict (setk ds "EOSLogURL"
        (.str (eosUrlBase ++ task ++ "/" ++ host ++ "-" ++ fwjr ++
          "-log.tar.gz"))))))) := by
  constructor
  · intro t ht hne
    simp [processWmaEntry, h1, pyIndex, h2, h3, ht, emptyLog, hne, bind, Except.bind,
      pure, Except.pure]
  · intro hemp task host fwjr mds htask hmd hhost hfw
    simp [processWmaEntry, h1, pyIndex, h2, h3, hemp, htask, hmd, hhost, hfw,
      pyStrConcat, pySet, bind, Except.bind]

/-- C5: two records sharing a key whose common field holds string lists
merge that field into a duplicate-free list with exactly the elements of
both lists (order unspecified). -/
theorem sequence_merge_dedup (u f : String) (hf : f ≠ "EOSLogURL") (a b : List String) :
    ∃ c : List Value,
      merge_dicts_by_url [mkRec u f (.list (a.map .str)), mkRec u f (.list (b.map .str))] =
        .ok ([.dict [("data", .dict [("EOSLogURL", .str u), (f, .list c)])]], []) ∧
      (∀ v, v ∈ c ↔ v ∈ (a ++ b).map Value.str) ∧ c.Nodup := by
  have hf' : ¬ ("EOSLogURL" = f) := fun h => hf h.symm
  have hprim : ∀ x ∈ (a.map Value.str ++ asElems (Value.list (b.map Value.str))),
      isPrim x = true := by
    simp only [asElems]
    intro x hx
    rcases List.mem_append.mp hx with h1 | h1 <;>
      · rcases List.mem_map.mp h1 with ⟨y, _, rfl⟩
        rfl
  have hA : ∀ x ∈ a, isPrim (Value.str x) = true := fun x _ => rfl
  have hB : ∀ x ∈ b, isPrim (Value.str x) = true := fun x _ => rfl
  refine ⟨dedupPrim (a.map Value.str ++ b.map Value.str), ?_, ?_, ?_⟩
  · simp [merge_dicts_by_url, groupByUrl, groupStep, itemUrl, pyIndex, mkRec, lookup,
      hf', insertGrouped, keyEq, hashableKey, outputStep, mergeGroup, mergeRecord,
      mergeField, mergeValue, setk, bind, Except.bind, pure, Except.pure, Except.map,
      List.foldlM, asElems, hA, hB]
    rw [if_pos ⟨hA, hB⟩]
  · intro v
    rw [mem_dedupPrim _ (by simpa [asElems] using hprim) v]
    simp
  · exact nodup_dedupPrim _ (by simpa [asElems] using hprim)

/-- C7 corrected: no `MergeConflictError` exists.  When the existing
combined value is a nested mapping and the incoming value is a scalar,
`dict.update` raises a bare, contextless built-in error whose kind depends
on the scalar — `TypeError` for a number or boolean, `ValueError` for a
non-empty string — and an empty-string scalar raises nothing at all,
leaving the mapping unchanged; in the opposite direction no error is
raised either — the incoming mapping simply overwrites the scalar. -/
theorem merge_type_mismatch_behaviour
    (u f : String) (hf : f ≠ "EOSLogURL") (kvs : Obj) (n : Int) (b : Bool)
    (t : String) (ht : t ≠ "") :
    merge_dicts_by_url [mkRec u f (.dict kvs), mkRec u f (.int n)] =
      .error .typeError ∧
    merge_dicts_by_url [mkRec u f (.dict kvs), mkRec u f (.bool b)] =
      .error .typeError ∧
    merge_dicts_by_url [mkRec u f (.dict kvs), mkRec u f (.str t)] =
      .error .valueError ∧
    merge_dicts_by_url [mkRec u f (.dict kvs), mkRec u f (.str "")] =
      .ok ([.dict [("data", .dict [("EOSLogURL", .str u), (f, .dict kvs)])]], []) ∧
    merge_dicts_by_url [mkRec u f (.int n), mkRec u f (.dict kvs)] =
      .ok ([.dict [("data", .dict [("EOSLogURL", .str u), (f, .dict kvs)])]], []) := by
  have hf' : ¬ ("EOSLogURL" = f) := fun h => hf h.symm
  refine ⟨?_, ?_, ?_, ?_, ?_⟩ <;>
    simp [merge_dicts_by_url, groupByUrl, groupStep, itemUrl, pyIndex, mkRec, lookup,
      hf', ht, insertGrouped, keyEq, hashableKey, outputStep, mergeGroup, mergeRecord,
      mergeField, mergeValue, setk, bind, Except.bind, pure, Except.pure, Except.map,
      List.foldlM]

/-- C7 counterexample: a scalar value for `f` followed by a nested mapping
for `f` under the same key is the claimed mapping-vs-scalar type mismatch,
yet the merge succeeds (nothing like a `MergeConflictError` is raised):
the mapping overwrites the scalar. -/
theorem merge_conflict_counterexample :
    merge_dicts_by_url
      [.dict [("data", .dict [("EOSLogURL", .str "u"), ("f", .int 1)])],
       .dict [("data", .dict [("EOSLogURL", .str "u"), ("f", .dict [("x", .int 1)])])]] =
    .ok ([.dict [("data", .dict [("EOSLogURL", .str "u"),
      ("f", .dict [("x", .int 1)])])]], []) := rfl

/-- C8 corrected: a record missing a required field makes the whole batch
fail with a Python `KeyError` that carries only the missing field name —
`Args` for the HTC deriver, `task` for the WMA deriver when no key is
present — and no record or origin information. -/
theorem missing_field_keyerror (entry : Value) (es ss ds : Obj)
    (h1 : entry = .dict es) (h2 : lookup es "_source" = some (.dict ss))
    (h3 : lookup ss "data" = some (.dict ds)) :
    (lookup ds "Args" = none →
      ∀ rest, add_log_htc (entry :: rest) = .error (.keyError "Args")) ∧
    (emptyLog (lookup ds "EOSLogURL") = true → lookup ds "task" = none →
      ∀ rest, add_log_wma (entry :: rest) = .error (.keyError "task")) := by
  constructor
  · intro hargs rest
    rw [add_log_htc, List.mapM_cons]
    simp [processHtcEntry, h1, pyIndex, h2, h3, hargs, bind, Except.bind]
  · intro hemp htask rest
    rw [add_log_wma, List.mapM_cons]
    simp [processWmaEntry, h1, pyIndex, h2, h3, hemp, htask, bind, Except.bind]

/-- C8 counterexample: two different records, each missing `Args`, raise
the identical error value, so the raised error identifies neither the
record nor the origin — only the field name. -/
theorem missing_field_counterexample :
    processHtcEntry (.dict [("_source", .dict [("data",
        .dict [("WMAgent_SubTaskName", .str "/T1")])])]) =
      .error (.keyError "Args") ∧
    processHtcEntry (.dict [("_source", .dict [("data",
        .dict [("WMAgent_SubTaskName", .str "/T2")])])]) =
      .error (.keyError "Args") ∧
    (Value.dict [("_source", .dict [("data",
        .dict [("WMAgent_SubTaskName", .str "/T1")])])]) ≠
    (Value.dict [("_source", .dict [("data",
        .dict [("WMAgent_SubTaskName", .str "/T2")])])]) := by
  refine ⟨rfl, rfl, ?_⟩
  simp

/-- Witness for `merge_partition_complete` on a three-record input. -/
theorem merge_partition_complete_witness :
    (∀ r ∈ cw1l, dataWF r = true) ∧
    merge_dicts_by_url cw1l = .ok (cw1m, cw1s) ∧
    (∃ gs, groupByUrl cw1l = .ok gs ∧
      (gs.map Prod.snd).flatten.Perm cw1l ∧
      (gs.map Prod.fst).Nodup ∧
      ((gs.filter (fun kg => decide (1 < kg.2.length))).map
        (fun kg => kg.2.length)).sum + cw1s.length = cw1l.length ∧
      ∀ x ∈ cw1m, x ∉ cw1s) :=
  ⟨by decide, rfl, merge_partition_complete cw1l cw1m cw1s (by decide) rfl⟩

/-- Witness for `htc_key_correct` on the spec's end-to-end example. -/
theorem htc_key_correct_witness :
    3 ≤ (pySplit "x a1 a2 x" ' ').length ∧
    processHtcEntry cw2entry = .ok (.dict [("data", .dict
      [("WMAgent_SubTaskName", .str "/Task1"), ("ScheddName", .str "sched1"),
       ("Args", .str "x a1 a2 x"),
       ("EOSLogURL", .str (eosUrlBase ++ "/Task1/sched1-a1-a2-log.tar.gz"))])]) :=
  ⟨by decide, htc_key_correct cw2entry [("_source", .dict [("data", .dict cw2ds)])]
    [("data", .dict cw2ds)] cw2ds "/Task1" "sched1" "x a1 a2 x"
    rfl rfl rfl rfl rfl rfl (by decide)⟩

/-- Witness for `wma_key_correct`: one record with an existing non-empty
key passes through; one keyless record derives the same key string the
HTC example derives. -/
theorem wma_key_correct_witness :
    processWmaEntry cw3a = .ok (.dict [("data", .dict cw3dsA)]) ∧
    emptyLog (lookup cw3dsB "EOSLogURL") = true ∧
    processWmaEntry cw3b = .ok (.dict [("data", .dict
      [("task", .str "/Task1"), ("meta_data", .dict cw3mds),
       ("EOSLogURL", .str (eosUrlBase ++ "/Task1/sched1-a1-a2-log.tar.gz"))])]) :=
  ⟨(wma_key_correct cw3a [("_source", .dict [("data", .dict cw3dsA)])]
      [("data", .dict cw3dsA)] cw3dsA rfl rfl rfl).1 "keep" rfl (by decide),
   rfl,
   (wma_key_correct cw3b [("_source", .dict [("data", .dict cw3dsB)])]
      [("data", .dict cw3dsB)] cw3dsB rfl rfl rfl).2 rfl
     "/Task1" "sched1" "a1-a2" cw3mds rfl rfl rfl rfl⟩

/-- Witness for `merged_field_union` on a two-record group with disjoint
fields. -/
theorem merged_field_union_witness :
    2 ≤ cw4g.length ∧ mergeGroup cw4g = .ok cw4x ∧
    (∃ M : Obj, cw4x = .dict [("data", .dict M)] ∧
      ∀ k : String, k ∈ M.map Prod.fst ↔
        ∃ r ∈ cw4g, ∃ ds : Obj, pyIndex r "data" = .ok (.dict ds) ∧
          k ∈ ds.map Prod.fst) :=
  ⟨by decide, rfl, merged_field_union cw4g cw4x (by decide) rfl⟩

/-- Witness for `sequence_merge_dedup` on the spec's example lists. -/
theorem sequence_merge_dedup_witness :
    ("f" : String) ≠ "EOSLogURL" ∧
    (∃ c : List Value,
      merge_dicts_by_url [mkRec "u" "f" (.list (["a"].map .str)),
        mkRec "u" "f" (.list (["a", "b"].map .str))] =
        .ok ([.dict [("data", .dict [("EOSLogURL", .str "u"), ("f", .list c)])]], []) ∧
      (∀ v, v ∈ c ↔ v ∈ ((["a"] ++ ["a", "b"]).map Value.str)) ∧ c.Nodup) :=
  ⟨by decide, sequence_merge_dedup "u" "f" (by decide) ["a"] ["a", "b"]⟩

/-- Witness for `merge_output_order` on an input whose shared key `p`
brackets a unique key `q`. -/
theorem merge_output_order_witness :
    merge_dicts_by_url cw6l = .ok (cw6m, cw6s) ∧
    ((multiKeys cw6l).mapM
      (fun k => mergeGroup (cw6l.filter (fun r => keyEq (recKey r) k))) = .ok cw6m ∧
     cw6s = cw6l.filter (fun r =>
       decide (cw6l.countP (fun r2 => keyEq (recKey r2) (recKey r)) = 1))) :=
  ⟨rfl, merge_output_order cw6l cw6m cw6s rfl⟩

/-- Witness for `merge_type_mismatch_behaviour` with a one-field mapping
against the integer 7, the boolean `true`, the non-empty string `"s"` and
the empty string. -/
theorem merge_type_mismatch_behaviour_witness :
    ("g" : String) ≠ "EOSLogURL" ∧ ("s" : String) ≠ "" ∧
    (merge_dicts_by_url [mkRec "u" "g" (.dict [("x", .int 5)]), mkRec "u" "g" (.int 7)] =
      .error .typeError ∧
     merge_dicts_by_url [mkRec "u" "g" (.dict [("x", .int 5)]), mkRec "u" "g" (.bool true)] =
      .error .typeError ∧
     merge_dicts_by_url [mkRec "u" "g" (.dict [("x", .int 5)]), mkRec "u" "g" (.str "s")] =
      .error .valueError ∧
     merge_dicts_by_url [mkRec "u" "g" (.dict [("x", .int 5)]), mkRec "u" "g" (.str "")] =
      .ok ([.dict [("data", .dict [("EOSLogURL", .str "u"),
        ("g", .dict [("x", .int 5)])])]], []) ∧
     merge_dicts_by_url [mkRec "u" "g" (.int 7), mkRec "u" "g" (.dict [("x", .int 5)])] =
      .ok ([.dict [("data", .dict [("EOSLogURL", .str "u"),
        ("g", .dict [("x", .int 5)])])]], [])) :=
  ⟨by decide, by decide,
   merge_type_mismatch_behaviour "u" "g" (by decide) [("x", .int 5)] 7 true "s" (by decide)⟩

/-- Witness for `missing_field_keyerror`: a one-record HTC batch without
`Args` and a one-record WMA batch without `task` both abort with the bare
`KeyError`. -/
theorem missing_field_keyerror_witness :
    add_log_htc [.dict [("_source", .dict [("data",
      .dict [("WMAgent_SubTaskName", .str "/T")])])]] = .error (.keyError "Args") ∧
    add_log_wma [.dict [("_source", .dict [("data",
      .dict [("meta_data", .dict [])])])]] = .error (.keyError "task") :=
  ⟨(missing_field_keyerror (.dict [("_source", .dict [("data",
      .dict [("WMAgent_SubTaskName", .str "/T")])])])
      [("_source", .dict [("data", .dict [("WMAgent_SubTaskName", .str "/T")])])]
      [("data", .dict [("WMAgent_SubTaskName", .str "/T")])]
      [("WMAgent_SubTaskName", .str "/T")] rfl rfl rfl).1 rfl [],
   (missing_field_keyerror (.dict [("_source", .dict [("data",
      .dict [("meta_data", .dict [])])])])
      [("_source", .dict [("data", .dict [("meta_data", .dict [])])])]
      [("data", .dict [("meta_data", .dict [])])]
      [("meta_data", .dict [])] rfl rfl rfl).2 rfl rfl []⟩

/-- Witness for `keyless_records_grouped` on two keyless records. -/
theorem keyless_records_grouped_witness :
    merge_dicts_by_url cw9l = .ok (cw9m, []) ∧
    2 ≤ (cw9l.filter (fun r => keyEq (recKey r) none)).length ∧
    ((∃ gs, groupByUrl cw9l = .ok gs ∧
       (none, cw9l.filter (fun r => keyEq (recKey r) none)) ∈ gs) ∧
     (∃ mm ∈ cw9m, mergeGroup (cw9l.filter (fun r => keyEq (recKey r) none)) = .ok mm) ∧
     ∀ x ∈ ([] : List Value), recKey x ≠ none) :=
  ⟨rfl, by decide, keyless_records_grouped cw9l cw9m [] rfl (by decide)⟩

/-- Witness for `merged_shape_singles_intact`: merged outputs lose the
contributing record's `extra` top-level field while the unmatched record
keeps its `top` field. -/
theorem merged_shape_singles_intact_witness :
    merge_dicts_by_url cw10l = .ok (cw10m, cw10s) ∧
    ((∀ x ∈ cw10m, ∃ M : Obj, x = .dict [("data", .dict M)]) ∧
     ∀ x ∈ cw10s, x ∈ cw10l) :=
  ⟨rfl, merged_shape_singles_intact cw10l cw10m cw10s rfl⟩
